import Mathlib

/-!
Verification of the DIBTD core (identity-based threshold decryption over
secp256k1): a shallow embedding of the scalar arithmetic, DKG protocol,
key derivation, encryption engine, Schnorr proof and threshold utilities,
together with proofs and refutations of the specified properties.

Scalars are modelled as `ZMod q` where `q` is the secp256k1 group order;
group points of the prime-order subgroup are modelled by their discrete
logarithm (also `ZMod q`), with `0` standing for the point at infinity,
which the rust `PublicKey` type cannot represent and whose appearance the
library operations report as errors.  External primitives (SHA-256 based
hashes, SEC1 point serialization) are abstract function parameters.
-/

set_option maxRecDepth 40000

namespace DIBTD

/-! ### Primality of the secp256k1 group order, by Lucas certificates -/

/-- Binary modular exponentiation with explicit structural fuel; fuel 300
covers every exponent below 2 ^ 300. -/
def powModAux : ℕ → ℕ → ℕ → ℕ → ℕ
  | _, _, 0, n => 1 % n
  | 0, _, _ + 1, n => 1 % n
  | f + 1, a, k + 1, n =>
    let r := powModAux f (a * a % n) ((k + 1) / 2) n
    if (k + 1) % 2 = 1 then r * a % n else r

lemma powModAux_eq (f : ℕ) :
    ∀ k : ℕ, k < 2 ^ f → ∀ a n : ℕ, powModAux f a k n = a ^ k % n := by
  induction f with
  | zero =>
    intro k hk a n
    have hk0 : k = 0 := by omega
    subst hk0
    simp [powModAux]
  | succ f ih =>
    intro k hk a n
    match k with
    | 0 => simp [powModAux]
    | k + 1 =>
      have hdiv : (k + 1) / 2 < 2 ^ f := by
        have h2 : 2 ^ (f + 1) = 2 * 2 ^ f := by ring
        omega
      have hrec : powModAux f (a * a % n) ((k + 1) / 2) n = (a * a) ^ ((k + 1) / 2) % n := by
        rw [ih _ hdiv, Nat.pow_mod, Nat.mod_mod_of_dvd _ (dvd_refl n)]
        rw [← Nat.pow_mod]
      have hsplit : (a * a) ^ ((k + 1) / 2) = a ^ (2 * ((k + 1) / 2)) := by
        rw [pow_mul, sq]
      rcases Nat.even_or_odd (k + 1) with he | ho
      · have hb : (k + 1) % 2 = 0 := Nat.even_iff.mp he
        have hk2 : 2 * ((k + 1) / 2) = k + 1 := by omega
        rw [powModAux]
        simp only [hb]
        norm_num
        rw [hrec, hsplit, hk2]
      · have hb : (k + 1) % 2 = 1 := Nat.odd_iff.mp ho
        have hk2 : 2 * ((k + 1) / 2) + 1 = k + 1 := by omega
        rw [powModAux]
        simp only [hb]
        norm_num
        rw [hrec, hsplit]
        rw [Nat.mul_mod, Nat.mod_mod_of_dvd _ (dvd_refl n), ← Nat.mul_mod]
        rw [← pow_succ, hk2]

lemma zmod_cast_pow_mod (p a e : ℕ) :
    ((a : ZMod p)) ^ e = ((a ^ e % p : ℕ) : ZMod p) := by
  rw [← Nat.cast_pow]
  conv_lhs => rw [← Nat.mod_add_div (a ^ e) p]
  push_cast
  simp

lemma zmod_pow_eq_one (p a e : ℕ) (hf : e < 2 ^ 300)
    (h : powModAux 300 a e p = 1) : ((a : ZMod p)) ^ e = 1 := by
  rw [zmod_cast_pow_mod, ← powModAux_eq 300 e hf, h, Nat.cast_one]

lemma zmod_pow_ne_one (p a e : ℕ) (hf : e < 2 ^ 300) (hp : 1 < p)
    (h : powModAux 300 a e p ≠ 1) : ((a : ZMod p)) ^ e ≠ 1 := by
  intro hc
  apply h
  rw [powModAux_eq 300 e hf]
  rw [zmod_cast_pow_mod] at hc
  have hlt : a ^ e % p < p := Nat.mod_lt _ (by omega)
  have hv := congrArg ZMod.val hc
  rw [ZMod.val_cast_of_lt hlt] at hv
  have hone : (1 : ZMod p).val = 1 % p := ZMod.val_one_eq_one_mod p
  rw [hv, hone, Nat.one_mod_eq_one.mpr (by omega)]

lemma prime_eq_of_dvd_prime_pow {r s n : ℕ} (hr : r.Prime) (hs : s.Prime)
    (h : r ∣ s ^ n) : r = s :=
  (Nat.prime_dvd_prime_iff_eq hr hs).mp (hr.dvd_of_dvd_pow h)

theorem prime_44706919 : Nat.Prime 44706919 := by
  have hp2 : Nat.Prime 2 := by norm_num
  have hp3 : Nat.Prime 3 := by norm_num
  have hp797 : Nat.Prime 797 := by norm_num
  have hp9349 : Nat.Prime 9349 := by norm_num
  refine lucas_primality _ ((6 : ℕ) : ZMod 44706919)
    (zmod_pow_eq_one _ _ _ (by norm_num) (by decide)) ?_
  intro r hr hdvd
  have hN : (44706919 : ℕ) - 1 = 2 * (3 * (797 * 9349)) := by norm_num
  rw [hN] at hdvd
  rcases (Nat.Prime.dvd_mul hr).mp hdvd with h | h
  · rw [(Nat.prime_dvd_prime_iff_eq hr hp2).mp h]
    exact zmod_pow_ne_one _ _ _ (by norm_num) (by norm_num) (by decide)
  rcases (Nat.Prime.dvd_mul hr).mp h with h | h
  · rw [(Nat.prime_dvd_prime_iff_eq hr hp3).mp h]
    exact zmod_pow_ne_one _ _ _ (by norm_num) (by norm_num) (by decide)
  rcases (Nat.Prime.dvd_mul hr).mp h with h | h
  · rw [(Nat.prime_dvd_prime_iff_eq hr hp797).mp h]
    exact zmod_pow_ne_one _ _ _ (by norm_num) (by norm_num) (by decide)
  · rw [(Nat.prime_dvd_prime_iff_eq hr hp9349).mp h]
    exact zmod_pow_ne_one _ _ _ (by norm_num) (by norm_num) (by decide)

theorem prime_545358713 : Nat.Prime 545358713 := by
  have hp2 : Nat.Prime 2 := by norm_num
  have hp41 : Nat.Prime 41 := by norm_num
  have hp59 : Nat.Prime 59 := by norm_num
  have hp28181 : Nat.Prime 28181 := by norm_num
  refine lucas_primality _ ((5 : ℕ) : ZMod 545358713)
    (zmod_pow_eq_one _ _ _ (by norm_num) (by decide)) ?_
  intro r hr hdvd
  have hN : (545358713 : ℕ) - 1 = 2 ^ 3 * (41 * (59 * (28181))) := by norm_num
  rw [hN] at hdvd
  rcases (Nat.Prime.dvd_mul hr).mp hdvd with h | h
  · rw [prime_eq_of_dvd_prime_pow hr hp2 h]
    exact zmod_pow_ne_one _ _ _ (by norm_num) (by norm_num) (by decide)
  rcases (Nat.Prime.dvd_mul hr).mp h with h | h
  · rw [(Nat.prime_dvd_prime_iff_eq hr hp41).mp h]
    exact zmod_pow_ne_one _ _ _ (by norm_num) (by norm_num) (by decide)
  rcases (Nat.Prime.dvd_mul hr).mp h with h | h
  · rw [(Nat.prime_dvd_prime_iff_eq hr hp59).mp h]
    exact zmod_pow_ne_one _ _ _ (by norm_num) (by norm_num) (by decide)
  · rw [(Nat.prime_dvd_prime_iff_eq hr hp28181).mp h]
    exact zmod_pow_ne_one _ _ _ (by norm_num) (by norm_num) (by decide)

theorem prime_297159362677 : Nat.Prime 297159362677 := by
  have hp2 : Nat.Prime 2 := by norm_num
  have hp3 : Nat.Prime 3 := by norm_num
  have hp11 : Nat.Prime 11 := by norm_num
  have hp461 : Nat.Prime 461 := by norm_num
  have hp1627771 : Nat.Prime 1627771 := by norm_num
  refine lucas_primality _ ((2 : ℕ) : ZMod 297159362677)
    (zmod_pow_eq_one _ _ _ (by norm_num) (by decide)) ?_
  intro r hr hdvd
  have hN : (297159362677 : ℕ) - 1 = 2 ^ 2 * (3 ^ 2 * (11 * (461 * (1627771)))) := by norm_num
  rw [hN] at hdvd
  rcases (Nat.Prime.dvd_mul hr).mp hdvd with h | h
  · rw [prime_eq_of_dvd_prime_pow hr hp2 h]
    exact zmod_pow_ne_one _ _ _ (by norm_num) (by norm_num) (by decide)
  rcases (Nat.Prime.dvd_mul hr).mp h with h | h
  · rw [prime_eq_of_dvd_prime_pow hr hp3 h]
    exact zmod_pow_ne_one _ _ _ (by norm_num) (by norm_num) (by decide)
  rcases (Nat.Prime.dvd_mul hr).mp h with h | h
  · rw [(Nat.prime_dvd_prime_iff_eq hr hp11).mp h]
    exact zmod_pow_ne_one _ _ _ (by norm_num) (by norm_num) (by decide)
  rcases (Nat.Prime.dvd_mul hr).mp h with h | h
  · rw [(Nat.prime_dvd_prime_iff_eq hr hp461).mp h]
    exact zmod_pow_ne_one _ _ _ (by norm_num) (by norm_num) (by decide)
  · rw [(Nat.prime_dvd_prime_iff_eq hr hp1627771).mp h]
    exact zmod_pow_ne_one _ _ _ (by norm_num) (by norm_num) (by decide)

theorem prime_29047611873442575647497758179 : Nat.Prime 29047611873442575647497758179 := by
  have hp2 : Nat.Prime 2 := by norm_num
  have hp293 : Nat.Prime 293 := by norm_num
  have hp305873 : Nat.Prime 305873 := by norm_num
  refine lucas_primality _ ((2 : ℕ) : ZMod 29047611873442575647497758179)
    (zmod_pow_eq_one _ _ _ (by norm_num) (by decide)) ?_
  intro r hr hdvd
  have hN : (29047611873442575647497758179 : ℕ) - 1 = 2 * (293 * (305873 * (545358713 * (297159362677)))) := by norm_num
  rw [hN] at hdvd
  rcases (Nat.Prime.dvd_mul hr).mp hdvd with h | h
  · rw [(Nat.prime_dvd_prime_iff_eq hr hp2).mp h]
    exact zmod_pow_ne_one _ _ _ (by norm_num) (by norm_num) (by decide)
  rcases (Nat.Prime.dvd_mul hr).mp h with h | h
  · rw [(Nat.prime_dvd_prime_iff_eq hr hp293).mp h]
    exact zmod_pow_ne_one _ _ _ (by norm_num) (by norm_num) (by decide)
  rcases (Nat.Prime.dvd_mul hr).mp h with h | h
  · rw [(Nat.prime_dvd_prime_iff_eq hr hp305873).mp h]
    exact zmod_pow_ne_one _ _ _ (by norm_num) (by norm_num) (by decide)
  rcases (Nat.Prime.dvd_mul hr).mp h with h | h
  · rw [(Nat.prime_dvd_prime_iff_eq hr prime_545358713).mp h]
    exact zmod_pow_ne_one _ _ _ (by norm_num) (by norm_num) (by decide)
  · rw [(Nat.prime_dvd_prime_iff_eq hr prime_297159362677).mp h]
    exact zmod_pow_ne_one _ _ _ (by norm_num) (by norm_num) (by decide)

theorem prime_107361793816595537 : Nat.Prime 107361793816595537 := by
  have hp2 : Nat.Prime 2 := by norm_num
  have hp16699 : Nat.Prime 16699 := by norm_num
  have hp85831 : Nat.Prime 85831 := by norm_num
  have hp4681609 : Nat.Prime 4681609 := by norm_num
  refine lucas_primality _ ((3 : ℕ) : ZMod 107361793816595537)
    (zmod_pow_eq_one _ _ _ (by norm_num) (by decide)) ?_
  intro r hr hdvd
  have hN : (107361793816595537 : ℕ) - 1 = 2 ^ 4 * (16699 * (85831 * (4681609))) := by norm_num
  rw [hN] at hdvd
  rcases (Nat.Prime.dvd_mul hr).mp hdvd with h | h
  · rw [prime_eq_of_dvd_prime_pow hr hp2 h]
    exact zmod_pow_ne_one _ _ _ (by norm_num) (by norm_num) (by decide)
  rcases (Nat.Prime.dvd_mul hr).mp h with h | h
  · rw [(Nat.prime_dvd_prime_iff_eq hr hp16699).mp h]
    exact zmod_pow_ne_one _ _ _ (by norm_num) (by norm_num) (by decide)
  rcases (Nat.Prime.dvd_mul hr).mp h with h | h
  · rw [(Nat.prime_dvd_prime_iff_eq hr hp85831).mp h]
    exact zmod_pow_ne_one _ _ _ (by norm_num) (by norm_num) (by decide)
  · rw [(Nat.prime_dvd_prime_iff_eq hr hp4681609).mp h]
    exact zmod_pow_ne_one _ _ _ (by norm_num) (by norm_num) (by decide)

theorem prime_174723607534414371449 : Nat.Prime 174723607534414371449 := by
  have hp2 : Nat.Prime 2 := by norm_num
  have hp17 : Nat.Prime 17 := by norm_num
  have hp59 : Nat.Prime 59 := by norm_num
  have hp4051 : Nat.Prime 4051 := by norm_num
  have hp120233 : Nat.Prime 120233 := by norm_num
  refine lucas_primality _ ((3 : ℕ) : ZMod 174723607534414371449)
    (zmod_pow_eq_one _ _ _ (by norm_num) (by decide)) ?_
  intro r hr hdvd
  have hN : (174723607534414371449 : ℕ) - 1 = 2 ^ 3 * (17 * (59 * (4051 * (120233 * (44706919))))) := by norm_num
  rw [hN] at hdvd
  rcases (Nat.Prime.dvd_mul hr).mp hdvd with h | h
  · rw [prime_eq_of_dvd_prime_pow hr hp2 h]
    exact zmod_pow_ne_one _ _ _ (by norm_num) (by norm_num) (by decide)
  rcases (Nat.Prime.dvd_mul hr).mp h with h | h
  · rw [(Nat.prime_dvd_prime_iff_eq hr hp17).mp h]
    exact zmod_pow_ne_one _ _ _ (by norm_num) (by norm_num) (by decide)
  rcases (Nat.Prime.dvd_mul hr).mp h with h | h
  · rw [(Nat.prime_dvd_prime_iff_eq hr hp59).mp h]
    exact zmod_pow_ne_one _ _ _ (by norm_num) (by norm_num) (by decide)
  rcases (Nat.Prime.dvd_mul hr).mp h with h | h
  · rw [(Nat.prime_dvd_prime_iff_eq hr hp4051).mp h]
    exact zmod_pow_ne_one _ _ _ (by norm_num) (by norm_num) (by decide)
  rcases (Nat.Prime.dvd_mul hr).mp h with h | h
  · rw [(Nat.prime_dvd_prime_iff_eq hr hp120233).mp h]
    exact zmod_pow_ne_one _ _ _ (by norm_num) (by norm_num) (by decide)
  · rw [(Nat.prime_dvd_prime_iff_eq hr prime_44706919).mp h]
    exact zmod_pow_ne_one _ _ _ (by norm_num) (by norm_num) (by decide)

theorem prime_341948486974166000522343609283189 : Nat.Prime 341948486974166000522343609283189 := by
  have hp2 : Nat.Prime 2 := by norm_num
  have hp3 : Nat.Prime 3 := by norm_num
  have hp109 : Nat.Prime 109 := by norm_num
  refine lucas_primality _ ((2 : ℕ) : ZMod 341948486974166000522343609283189)
    (zmod_pow_eq_one _ _ _ (by norm_num) (by decide)) ?_
  intro r hr hdvd
  have hN : (341948486974166000522343609283189 : ℕ) - 1 = 2 ^ 2 * (3 ^ 3 * (109 * (29047611873442575647497758179))) := by norm_num
  rw [hN] at hdvd
  rcases (Nat.Prime.dvd_mul hr).mp hdvd with h | h
  · rw [prime_eq_of_dvd_prime_pow hr hp2 h]
    exact zmod_pow_ne_one _ _ _ (by norm_num) (by norm_num) (by decide)
  rcases (Nat.Prime.dvd_mul hr).mp h with h | h
  · rw [prime_eq_of_dvd_prime_pow hr hp3 h]
    exact zmod_pow_ne_one _ _ _ (by norm_num) (by norm_num) (by decide)
  rcases (Nat.Prime.dvd_mul hr).mp h with h | h
  · rw [(Nat.prime_dvd_prime_iff_eq hr hp109).mp h]
    exact zmod_pow_ne_one _ _ _ (by norm_num) (by norm_num) (by decide)
  · rw [(Nat.prime_dvd_prime_iff_eq hr prime_29047611873442575647497758179).mp h]
    exact zmod_pow_ne_one _ _ _ (by norm_num) (by norm_num) (by decide)

theorem prime_115792089237316195423570985008687907852837564279074904382605163141518161494337 : Nat.Prime 115792089237316195423570985008687907852837564279074904382605163141518161494337 := by
  have hp2 : Nat.Prime 2 := by norm_num
  have hp3 : Nat.Prime 3 := by norm_num
  have hp149 : Nat.Prime 149 := by norm_num
  have hp631 : Nat.Prime 631 := by norm_num
  refine lucas_primality _ ((7 : ℕ) : ZMod 115792089237316195423570985008687907852837564279074904382605163141518161494337)
    (zmod_pow_eq_one _ _ _ (by norm_num) (by decide)) ?_
  intro r hr hdvd
  have hN : (115792089237316195423570985008687907852837564279074904382605163141518161494337 : ℕ) - 1 = 2 ^ 6 * (3 * (149 * (631 * (107361793816595537 * (174723607534414371449 * (341948486974166000522343609283189)))))) := by norm_num
  rw [hN] at hdvd
  rcases (Nat.Prime.dvd_mul hr).mp hdvd with h | h
  · rw [prime_eq_of_dvd_prime_pow hr hp2 h]
    exact zmod_pow_ne_one _ _ _ (by norm_num) (by norm_num) (by decide)
  rcases (Nat.Prime.dvd_mul hr).mp h with h | h
  · rw [(Nat.prime_dvd_prime_iff_eq hr hp3).mp h]
    exact zmod_pow_ne_one _ _ _ (by norm_num) (by norm_num) (by decide)
  rcases (Nat.Prime.dvd_mul hr).mp h with h | h
  · rw [(Nat.prime_dvd_prime_iff_eq hr hp149).mp h]
    exact zmod_pow_ne_one _ _ _ (by norm_num) (by norm_num) (by decide)
  rcases (Nat.Prime.dvd_mul hr).mp h with h | h
  · rw [(Nat.prime_dvd_prime_iff_eq hr hp631).mp h]
    exact zmod_pow_ne_one _ _ _ (by norm_num) (by norm_num) (by decide)
  rcases (Nat.Prime.dvd_mul hr).mp h with h | h
  · rw [(Nat.prime_dvd_prime_iff_eq hr prime_107361793816595537).mp h]
    exact zmod_pow_ne_one _ _ _ (by norm_num) (by norm_num) (by decide)
  rcases (Nat.Prime.dvd_mul hr).mp h with h | h
  · rw [(Nat.prime_dvd_prime_iff_eq hr prime_174723607534414371449).mp h]
    exact zmod_pow_ne_one _ _ _ (by norm_num) (by norm_num) (by decide)
  · rw [(Nat.prime_dvd_prime_iff_eq hr prime_341948486974166000522343609283189).mp h]
    exact zmod_pow_ne_one _ _ _ (by norm_num) (by norm_num) (by decide)

/-! ### The data model

Scalars and points.  The rust code works with secp256k1 Scalar values
(always reduced below the group order) and PublicKey values (points of the
prime-order subgroup other than the point at infinity).  Every point the
code manipulates is produced from a secret key, so it is determined by its
discrete logarithm; we represent a point by that logarithm, with 0 standing
for the point at infinity, a value the rust PublicKey type cannot hold and
whose appearance the underlying library reports as an error. -/

/-- The secp256k1 group order, the hard-coded modulus of utils.rs. -/
def q : ℕ := 115792089237316195423570985008687907852837564279074904382605163141518161494337

theorem q_prime : Nat.Prime q :=
  prime_115792089237316195423570985008687907852837564279074904382605163141518161494337

instance : Fact (Nat.Prime q) := ⟨q_prime⟩

/-- A scalar (secp256k1 Scalar, reduced modulo the group order). -/
abbrev Scalar : Type := ZMod q

/-- A point of the prime-order subgroup, represented by its discrete
logarithm; 0 represents the point at infinity. -/
abbrev Point : Type := ZMod q

/-- The error type of errors.rs.  The rust Secp256k1Error variant carries
the underlying library error; no claim distinguishes those payloads, so the
variant is modelled without one. -/
inductive DIBTDError : Type
  | InvalidThreshold (t n : ℕ)
  | InsufficientShares (got need : ℕ)
  | InvalidShareVerification
  | InvalidProof
  | DecryptionFailed
  | KeyGenerationFailed
  | InvalidCiphertext
  | Secp256k1Error
  | SerializationError (reason : String)
  | AEADError (reason : String)
  | InvalidGroupIdentity
  | DKGProtocolFailed (reason : String)
deriving DecidableEq

/-- The Result type of errors.rs. -/
abbrev RRes (α : Type) : Type := Except DIBTDError α

instance {ε α : Type} [DecidableEq ε] [DecidableEq α] :
    DecidableEq (Except ε α) := fun x y =>
  match x, y with
  | .error e₁, .error e₂ =>
    if h : e₁ = e₂ then .isTrue (congrArg Except.error h)
    else .isFalse (fun hc => h (Except.error.inj hc))
  | .ok a₁, .ok a₂ =>
    if h : a₁ = a₂ then .isTrue (congrArg Except.ok h)
    else .isFalse (fun hc => h (Except.ok.inj hc))
  | .error _, .ok _ => .isFalse (fun hc => Except.noConfusion hc)
  | .ok _, .error _ => .isFalse (fun hc => Except.noConfusion hc)

@[simp] lemma rres_bind_ok {α β : Type} (a : α) (f : α → RRes β) :
    (Except.ok a >>= f : RRes β) = f a := rfl

@[simp] lemma rres_bind_error {α β : Type} (e : DIBTDError) (f : α → RRes β) :
    (Except.error e >>= f : RRes β) = Except.error e := rfl

@[simp] lemma rres_map_ok {α β : Type} (g : α → β) (a : α) :
    (g <$> (Except.ok a : RRes α)) = Except.ok (g a) := rfl

@[simp] lemma rres_map_error {α β : Type} (g : α → β) (e : DIBTDError) :
    (g <$> (Except.error e : RRes α)) = Except.error e := rfl

@[simp] lemma rres_pure_eq {α : Type} (a : α) :
    (pure a : RRes α) = Except.ok a := rfl

@[simp] lemma rres_toOption_ok {α : Type} (a : α) :
    (Except.ok a : RRes α).toOption = some a := rfl

@[simp] lemma rres_toOption_error {α : Type} (e : DIBTDError) :
    (Except.error e : RRes α).toOption = none := rfl

/-- The external primitives the core calls but does not implement: SEC1
compressed point serialization and the SHA-256 based hash functions of
utils.rs.  The scalar-valued hashes model the composition of SHA-256 with
the big-endian reinterpretation into a Scalar (the rust code unwraps that
conversion, which can only fail on the measure 2 to the -128 event that the
digest is at least q); chal is the challenge hash of schnorr_prove and
schnorr_verify applied to the context bytes and the serialized commitment. -/
structure Primitives : Type where
  ser : Point → List ℕ
  h1 : List ℕ → Scalar
  h2 : Point → List ℕ
  h2b : List ℕ → List ℕ
  h3 : Point → Point → List ℕ → Scalar
  chal : List ℕ → List ℕ → Scalar

/-- types.rs SystemParams. -/
structure SystemParams : Type where
  n : ℕ
  t : ℕ
deriving DecidableEq

/-- types.rs MasterPublicKey. -/
structure MasterPublicKey : Type where
  y : Point
  gamma : Point
  params : SystemParams
deriving DecidableEq

/-- types.rs MasterSecretShare. -/
structure MasterSecretShare : Type where
  index : ℕ
  s_i : Scalar
  z_i : Scalar
deriving DecidableEq

/-- types.rs Ciphertext; f is the masked byte string. -/
structure Ciphertext : Type where
  d : Point
  e : Point
  f : List ℕ
  delta : Scalar
deriving DecidableEq

/-- types.rs DecryptionShare. -/
structure DecryptionShare : Type where
  index : ℕ
  lambda_i : Point
deriving DecidableEq

/-- types.rs Proof (a Schnorr proof). -/
structure Proof : Type where
  r : Point
  mu : Scalar
deriving DecidableEq

/-- types.rs PrivateKeyShare. -/
structure PrivateKeyShare : Type where
  index : ℕ
  psi_i : Scalar
  verification_key : Point
deriving DecidableEq

/-- types.rs Polynomial: a list of coefficients, lowest degree first.  The
rust constructors fill it with fresh random scalars (optionally with a fixed
constant term); randomness is passed in explicitly wherever it is used. -/
structure Poly : Type where
  coefficients : List Scalar
deriving DecidableEq

/-- types.rs GroupIdentity; the identity string is modelled by its bytes. -/
structure GroupIdentity : Type where
  id : List ℕ
  threshold : ℕ
  members : ℕ
deriving DecidableEq

/-- types.rs DKGParticipant.  The rust shares_received HashMap is modelled
as an association list in iteration order. -/
structure DKGParticipant : Type where
  index : ℕ
  f_0 : Poly
  f_1 : Poly
  commitments_0 : List Point
  commitments_1 : List Point
  shares_received : List (ℕ × (Scalar × Scalar))
deriving DecidableEq

/-- dkg.rs DKGProtocol state; the participants HashMap is modelled as an
association list in iteration order. -/
structure DKGProtocol : Type where
  participants : List (ℕ × DKGParticipant)
  n : ℕ
  t : ℕ
deriving DecidableEq

/-- HashMap::get on the association-list model: first entry with the key. -/
def lookup {α : Type} (k : ℕ) : List (ℕ × α) → Option α
  | [] => none
  | kv :: rest => if kv.1 = k then some kv.2 else lookup k rest

/-- HashMap::insert on the association-list model: replace the entry with
the key if present, otherwise append. -/
def insertR {α : Type} (k : ℕ) (v : α) : List (ℕ × α) → List (ℕ × α)
  | [] => [(k, v)]
  | kv :: rest => if kv.1 = k then (k, v) :: rest else kv :: insertR k v rest

/-! ### utils.rs: scalar arithmetic and point operations -/

/-- utils.rs scalar_add: big-integer addition reduced modulo q. -/
def scalar_add (a b : Scalar) : Scalar := a + b

/-- utils.rs scalar_mul: big-integer multiplication reduced modulo q. -/
def scalar_mul (a b : Scalar) : Scalar := a * b

/-- utils.rs scalar_negate: q - a for nonzero a and 0 for 0, which is
negation in ZMod q. -/
def scalar_negate (a : Scalar) : Scalar := -a

/-- utils.rs scalar_from_u32 composed with the rust cast x as u32 performed
at its call site in Polynomial::evaluate. -/
def scalar_from_u32 (x : ℕ) : Scalar := ((x % 2 ^ 32 : ℕ) : Scalar)

/-- rust SecretKey::from_slice on the 32-byte encoding of a reduced scalar:
fails exactly on the zero scalar. -/
def secretKeyOfScalar (s : Scalar) : RRes Scalar :=
  if s = 0 then .error .Secp256k1Error else .ok s

/-- rust PublicKey::from_secret_key: the point with discrete logarithm sk. -/
def pubOfSecret (sk : Scalar) : Point := sk

/-- rust PublicKey::mul_tweak: scalar multiplication of a point, failing when
the tweak is zero (an invalid tweak) or the result would be the point at
infinity. -/
def mul_tweak (p : Point) (s : Scalar) : RRes Point :=
  if s = 0 ∨ p * s = 0 then .error .Secp256k1Error else .ok (p * s)

/-- rust PublicKey::combine: point addition, failing when the sum is the
point at infinity. -/
def combine (p₁ p₂ : Point) : RRes Point :=
  if p₁ + p₂ = 0 then .error .Secp256k1Error else .ok (p₁ + p₂)

/-- utils.rs xor_bytes: bytewise xor, truncated to the shorter input. -/
def xor_bytes (a b : List ℕ) : List ℕ := List.zipWith (fun x y => x ^^^ y) a b

/-- utils.rs pad_or_truncate: first len bytes, zero-padded on the right. -/
def pad_or_truncate (data : List ℕ) (len : ℕ) : List ℕ :=
  data.take len ++ List.replicate (len - data.length) 0

/-! ### utils.rs: extended gcd, modular inverse, Lagrange coefficients -/

/-- utils.rs extended_gcd_signed, specialized to the nonnegative arguments
the code feeds it, with explicit structural fuel (the first argument
strictly decreases, so fuel at least the first argument suffices; the base
value returned on exhausted fuel is never reached).  Returns (g, x, y) with
g the gcd and a * x + b * y = g. -/
def egcdAux : ℕ → ℕ → ℕ → ℕ × ℤ × ℤ
  | _, 0, b => (b, 0, 1)
  | 0, _ + 1, _ => (0, 0, 0)
  | fuel + 1, a + 1, b =>
    let r := egcdAux fuel (b % (a + 1)) (a + 1)
    (r.1, r.2.2 - (b / (a + 1)) * r.2.1, r.2.1)

/-- utils.rs extended_gcd_signed at nonnegative arguments. -/
def extended_gcd_signed (a b : ℕ) : ℕ × ℤ × ℤ := egcdAux a a b

/-- utils.rs mod_inverse: fails with InvalidThreshold(0, 0) (the tag the
source really uses there) when the gcd is not 1, otherwise returns the
Bezout coefficient lifted into the range 0 to m-1. -/
def mod_inverse (a m : ℕ) : RRes ℕ :=
  if (extended_gcd_signed a m).1 ≠ 1 then .error (.InvalidThreshold 0 0)
  else .ok (((extended_gcd_signed a m).2.1 % (m : ℤ) + m) % m).toNat

/-- One difference factor of utils.rs lagrange_coefficient: x - k reduced
into the range 0 to q-1 through the signed branch of the source. -/
def diffModQ (x k : ℕ) : ℕ :=
  if k ≤ x then (x - k) % q else q - (k - x) % q

/-- The numerator and denominator accumulated by the loop of utils.rs
lagrange_coefficient: running products over k in indices with k ≠ i of
(j - k) and (i - k), reduced mod q at each step. -/
def lagrangeNumDen (indices : List ℕ) (i j : ℕ) : ℕ × ℕ :=
  indices.foldl
    (fun nd k =>
      if k ≠ i then (nd.1 * diffModQ j k % q, nd.2 * diffModQ i k % q) else nd)
    (1, 1)

/-- utils.rs lagrange_coefficient. -/
def lagrange_coefficient (indices : List ℕ) (i j : ℕ) : RRes Scalar :=
  let nd := lagrangeNumDen indices i j
  match mod_inverse nd.2 q with
  | .error e => .error e
  | .ok dinv => .ok ((nd.1 * dinv : ℕ) : Scalar)

/-! ### types.rs: polynomial evaluation -/

/-- types.rs Polynomial::evaluate: iterative Horner-style accumulation of
coefficient times power, with the evaluation point cast through u32. -/
def Poly.evaluate (p : Poly) (x : ℕ) : Scalar :=
  (p.coefficients.foldl
    (fun (acc : Scalar × Scalar) coeff =>
      (scalar_add acc.1 (scalar_mul coeff acc.2),
       scalar_mul acc.2 (scalar_from_u32 x)))
    (0, 1)).1

/-! ### utils.rs: Schnorr proof -/

/-- utils.rs schnorr_prove with the random nonce k passed explicitly; none
models the panic of the unwrap on SecretKey::from_slice when k = 0. -/
def schnorr_prove (pr : Primitives) (secret : Scalar) (context : List ℕ)
    (k : Scalar) : Option Proof :=
  if k = 0 then none
  else
    let r := pubOfSecret k
    let c := pr.chal context (pr.ser r)
    some ⟨r, scalar_add k (scalar_mul secret c)⟩

/-- utils.rs schnorr_verify; none models the panic of one of the three
unwraps (mu the zero scalar, a zero challenge tweak, or R + c * VK the
point at infinity). -/
def schnorr_verify (pr : Primitives) (proof : Proof) (public_key : Point)
    (context : List ℕ) : Option Bool :=
  match secretKeyOfScalar proof.mu with
  | .error _ => none
  | .ok mu_key =>
    match mul_tweak public_key (pr.chal context (pr.ser proof.r)) with
    | .error _ => none
    | .ok c_pk =>
      match combine proof.r c_pk with
      | .error _ => none
      | .ok rhs => some (decide (pubOfSecret mu_key = rhs))

/-! ### crypto.rs: ZKProof -/

/-- crypto.rs ZKProof::verify_share. -/
def verify_share (pr : Primitives) (proof : Proof) (verification_key : Point)
    (context : List ℕ) : Option Bool :=
  schnorr_verify pr proof verification_key context

/-- The zip-and-all loop of crypto.rs ZKProof::batch_verify, short-circuiting
on the first false and propagating a panic of verify_share. -/
def allVerify (pr : Primitives) (context : List ℕ) :
    List (Proof × Point) → Option Bool
  | [] => some true
  | pv :: rest =>
    match verify_share pr pv.1 pv.2 context with
    | none => none
    | some false => some false
    | some true => allVerify pr context rest

/-- crypto.rs ZKProof::batch_verify. -/
def batch_verify (pr : Primitives) (proofs : List Proof)
    (verification_keys : List Point) (context : List ℕ) : Option Bool :=
  if proofs.length ≠ verification_keys.length then some false
  else allVerify pr context (proofs.zip verification_keys)

/-! ### encryption.rs -/

/-- encryption.rs DIBTDEncryption::encrypt, with the random scalar u passed
explicitly. -/
def encrypt (pr : Primitives) (message : List ℕ) (group_id : List ℕ)
    (mpk : MasterPublicKey) (u : Scalar) : RRes Ciphertext := do
  let id_hash := pr.h1 group_id
  let gamma_scaled ← mul_tweak mpk.gamma id_hash
  let combined ← combine mpk.y gamma_scaled
  let delta ← mul_tweak combined u
  let u_key ← secretKeyOfScalar u
  let d := pubOfSecret u_key
  let r := pr.h1 (message ++ pr.ser delta)
  let r_key ← secretKeyOfScalar r
  let e := pubOfSecret r_key
  let theta := pr.h2 delta
  let theta_padded := pad_or_truncate theta message.length
  let omega := pr.h2b (pr.ser e ++ theta)
  let omega_padded := pad_or_truncate omega message.length
  let x := xor_bytes theta_padded message
  let f := xor_bytes omega_padded x
  let h3_val := pr.h3 d e f
  let delta_scalar := scalar_add u (scalar_mul r h3_val)
  return ⟨d, e, f, delta_scalar⟩

/-- encryption.rs DIBTDEncryption::share_decrypt. -/
def share_decrypt (pr : Primitives) (c : Ciphertext) (ps : PrivateKeyShare) :
    RRes DecryptionShare := do
  let delta_key ← secretKeyOfScalar c.delta
  let delta_point := pubOfSecret delta_key
  let h3_val := pr.h3 c.d c.e c.f
  let e_scaled ← mul_tweak c.e h3_val
  let expected ← combine c.d e_scaled
  if delta_point ≠ expected then
    .error .InvalidCiphertext
  else do
    let lambda_i ← mul_tweak c.d ps.psi_i
    return ⟨ps.index, lambda_i⟩

/-- The Lagrange accumulation loop of encryption.rs DIBTDEncryption::decrypt. -/
def decryptAccum (indices : List ℕ) :
    List DecryptionShare → Option Point → RRes (Option Point)
  | [], acc => .ok acc
  | sh :: rest, acc => do
    let coeff ← lagrange_coefficient indices sh.index 0
    let weighted ← mul_tweak sh.lambda_i coeff
    let acc2 ← match acc with
      | none => .ok weighted
      | some a => combine a weighted
    decryptAccum indices rest (some acc2)

/-- encryption.rs DIBTDEncryption::decrypt. -/
def decrypt (pr : Primitives) (c : Ciphertext) (shares : List DecryptionShare)
    (threshold : ℕ) : RRes (List ℕ) := do
  if shares.length < threshold then
    .error (.InsufficientShares shares.length threshold)
  else do
    let indices := (shares.map (fun s => s.index)).take threshold
    let deltaOpt ← decryptAccum indices (shares.take threshold) none
    match deltaOpt with
    | none => .error .DecryptionFailed
    | some delta => do
      let theta := pr.h2 delta
      let theta_padded := pad_or_truncate theta c.f.length
      let omega := pr.h2b (pr.ser c.e ++ theta)
      let omega_padded := pad_or_truncate omega c.f.length
      let x := xor_bytes c.f omega_padded
      let message := xor_bytes x theta_padded
      let r := pr.h1 (message ++ pr.ser delta)
      let r_key ← secretKeyOfScalar r
      let expected_e := pubOfSecret r_key
      if expected_e ≠ c.e then .error .DecryptionFailed
      else return message

/-! ### dkg.rs -/

/-- dkg.rs DKGProtocol::new. -/
def DKGProtocol.new (n t : ℕ) : RRes DKGProtocol :=
  if t > n ∨ t = 0 then .error (.InvalidThreshold t n) else .ok ⟨[], n, t⟩

/-- The commitment loop of dkg.rs DKGProtocol::init_participant. -/
def initCommitsAux (f_0 f_1 : Poly) : List ℕ → RRes (List Point × List Point)
  | [] => .ok ([], [])
  | i :: rest => do
    let sk0 ← secretKeyOfScalar (f_0.evaluate i)
    let sk1 ← secretKeyOfScalar (f_1.evaluate i)
    let r ← initCommitsAux f_0 f_1 rest
    return (pubOfSecret sk0 :: r.1, pubOfSecret sk1 :: r.2)

/-- dkg.rs DKGProtocol::init_participant, with the two freshly sampled
polynomials passed explicitly. -/
def DKGProtocol.init_participant (st : DKGProtocol) (index : ℕ)
    (f_0 f_1 : Poly) : RRes DKGProtocol :=
  if index = 0 ∨ index > st.n then
    .error (.DKGProtocolFailed "Invalid participant index")
  else do
    let cs ← initCommitsAux f_0 f_1 (List.range' 1 st.n)
    let p : DKGParticipant := ⟨index, f_0, f_1, cs.1, cs.2, []⟩
    let ps := insertR index p st.participants
    return { st with participants := ps }

/-- dkg.rs DKGProtocol::distribute_shares. -/
def DKGProtocol.distribute_shares (st : DKGProtocol) (from_idx : ℕ) :
    RRes (List (ℕ × (Scalar × Scalar))) :=
  match lookup from_idx st.participants with
  | none => .error (.DKGProtocolFailed "Participant not found")
  | some p =>
    .ok (((List.range' 1 st.n).filter (fun to_idx => to_idx ≠ from_idx)).map
      (fun to_idx => (to_idx, (p.f_0.evaluate to_idx, p.f_1.evaluate to_idx))))

/-- dkg.rs DKGProtocol::receive_shares. -/
def DKGProtocol.receive_shares (st : DKGProtocol) (to_idx from_idx : ℕ)
    (shares : Scalar × Scalar) : RRes DKGProtocol :=
  match lookup to_idx st.participants with
  | none => .error (.DKGProtocolFailed "Participant not found")
  | some p =>
    let p2 : DKGParticipant :=
      { p with shares_received := insertR from_idx shares p.shares_received }
    .ok { st with participants := insertR to_idx p2 st.participants }

/-- The aggregated share s_i of dkg.rs DKGProtocol::finalize: the own
polynomial evaluated at the own index plus every received first component. -/
def aggS (p : DKGParticipant) : Scalar :=
  p.shares_received.foldl (fun acc kv => scalar_add acc kv.2.1)
    (p.f_0.evaluate p.index)

/-- The aggregated share z_i of dkg.rs DKGProtocol::finalize. -/
def aggZ (p : DKGParticipant) : Scalar :=
  p.shares_received.foldl (fun acc kv => scalar_add acc kv.2.2)
    (p.f_1.evaluate p.index)

/-- The secret_shares map built by the first loop of finalize, in the
iteration order of the participants map. -/
def secretSharesOf (st : DKGProtocol) : List (ℕ × MasterSecretShare) :=
  st.participants.map (fun ip => (ip.1, ⟨ip.1, aggS ip.2, aggZ ip.2⟩))

/-- The master-public-key interpolation loop of finalize over the fixed
index list. -/
def finalizeAccum (ss : List (ℕ × MasterSecretShare)) (indices : List ℕ) :
    List ℕ → Option Point × Option Point → RRes (Option Point × Option Point)
  | [], acc => .ok acc
  | i :: rest, acc =>
    match lookup i ss with
    | none => .error (.DKGProtocolFailed "Missing share")
    | some share => do
      let coeff ← lagrange_coefficient indices i 0
      let s_scaled := scalar_mul share.s_i coeff
      let z_scaled := scalar_mul share.z_i coeff
      let sk_y ← secretKeyOfScalar s_scaled
      let sk_g ← secretKeyOfScalar z_scaled
      let y_i := pubOfSecret sk_y
      let g_i := pubOfSecret sk_g
      let y2 ← match acc.1 with
        | none => .ok y_i
        | some a => combine a y_i
      let g2 ← match acc.2 with
        | none => .ok g_i
        | some a => combine a g_i
      finalizeAccum ss indices rest (some y2, some g2)

/-- dkg.rs DKGProtocol::finalize.  The outer Option models the final
unwraps of the two accumulators: none is the panic that would fire if the
interpolation loop were empty (t = 0). -/
def DKGProtocol.finalize (st : DKGProtocol) :
    Option (RRes (MasterPublicKey × List (ℕ × MasterSecretShare))) :=
  if st.participants.length < st.t then
    some (.error (.InsufficientShares st.participants.length st.t))
  else
    match finalizeAccum (secretSharesOf st) (List.range' 1 st.t)
        (List.range' 1 st.t) (none, none) with
    | .error e => some (.error e)
    | .ok (some y, some g) =>
      some (.ok (⟨y, g, ⟨st.n, st.t⟩⟩, secretSharesOf st))
    | .ok _ => none

/-- The shared shape of the Lagrange reconstruction loops of dkg.rs
distributed_keygen and threshold.rs reconstruct_secret. -/
def lagCombineScalars (indices : List ℕ) :
    List (ℕ × Scalar) → Scalar → RRes Scalar
  | [], acc => .ok acc
  | iv :: rest, acc =>
    match lagrange_coefficient indices iv.1 0 with
    | .error e => .error e
    | .ok coeff =>
      lagCombineScalars indices rest (scalar_add acc (scalar_mul iv.2 coeff))

/-- The member loop of dkg.rs distributed_keygen. -/
def keygenSharesAux (poly : Poly) : List ℕ → RRes (List (ℕ × PrivateKeyShare))
  | [] => .ok []
  | j :: rest => do
    let psi := poly.evaluate j
    let sk ← secretKeyOfScalar psi
    let others ← keygenSharesAux poly rest
    return (j, ⟨j, psi, pubOfSecret sk⟩) :: others

/-- dkg.rs distributed_keygen, with the iteration order of the
master-shares map given by the list order and the fresh random coefficients
of Polynomial::with_constant passed explicitly. -/
def distributed_keygen (pr : Primitives)
    (master_shares : List (ℕ × MasterSecretShare)) (group_id : GroupIdentity)
    (threshold : ℕ) (freshCoeffs : List Scalar) :
    RRes (List (ℕ × PrivateKeyShare)) := do
  let id_hash := pr.h1 group_id.id
  let group_shares := (master_shares.take threshold).map
    (fun is => (is.1, scalar_add is.2.s_i (scalar_mul id_hash is.2.z_i)))
  let indices := group_shares.map Prod.fst
  let group_secret ← lagCombineScalars indices group_shares 0
  let poly : Poly := ⟨group_secret :: freshCoeffs⟩
  keygenSharesAux poly (List.range' 1 group_id.members)

/-! ### threshold.rs -/

/-- threshold.rs ThresholdOperations::reconstruct_secret. -/
def reconstruct_secret (shares : List (ℕ × Scalar)) (threshold : ℕ) :
    RRes Scalar :=
  if shares.length < threshold then
    .error (.InsufficientShares shares.length threshold)
  else
    lagCombineScalars ((shares.map Prod.fst).take threshold)
      (shares.take threshold) 0

/-- The indexing shares[&i].psi_i of threshold.rs (total because the key
list is drawn from the map itself; the default is unreachable there). -/
def psiOf (shares : List (ℕ × PrivateKeyShare)) (i : ℕ) : Scalar :=
  ((lookup i shares).getD ⟨0, 0, 0⟩).psi_i

/-- threshold.rs ThresholdOperations::verify_threshold_consistency; the
index list is the iteration order of the shares map (the list order of the
model). -/
def verify_threshold_consistency (shares : List (ℕ × PrivateKeyShare))
    (threshold : ℕ) : RRes Bool :=
  if shares.length < threshold then .ok false
  else
    let indices := shares.map Prod.fst
    if indices.length < threshold + 1 then
      .ok (decide (indices.length = threshold))
    else
      let subset1 := (indices.take threshold).map (fun i => (i, psiOf shares i))
      let subset2_indices := (indices.take threshold).drop 1 ++ [indices.getD threshold 0]
      let subset2 := subset2_indices.map (fun i => (i, psiOf shares i))
      match reconstruct_secret subset1 threshold with
      | .error e => .error e
      | .ok s1 =>
        match reconstruct_secret subset2 threshold with
        | .error e => .error e
        | .ok s2 => .ok (decide (s1 = s2))

/-- Insertion of a value into a sorted list of naturals. -/
def insertAsc (x : ℕ) : List ℕ → List ℕ
  | [] => [x]
  | y :: rest => if x ≤ y then x :: y :: rest else y :: insertAsc x rest

/-- Insertion sort on naturals. -/
def sortNat : List ℕ → List ℕ
  | [] => []
  | x :: rest => insertAsc x (sortNat rest)

/-- Modelled from the spec wording of claim C8: the consistency check as the
claim states it, with the two k-subsets taken at positions 0 to k-1 and 1 to
k of the SORTED list of the map indices (the source takes them from the
unsorted iteration order instead). -/
def verify_threshold_consistency_sorted (shares : List (ℕ × PrivateKeyShare))
    (threshold : ℕ) : RRes Bool :=
  if shares.length < threshold then .ok false
  else
    let indices := sortNat (shares.map Prod.fst)
    if indices.length < threshold + 1 then
      .ok (decide (indices.length = threshold))
    else
      let subset1 := (indices.take threshold).map (fun i => (i, psiOf shares i))
      let subset2_indices := (indices.take threshold).drop 1 ++ [indices.getD threshold 0]
      let subset2 := subset2_indices.map (fun i => (i, psiOf shares i))
      match reconstruct_secret subset1 threshold with
      | .error e => .error e
      | .ok s1 =>
        match reconstruct_secret subset2 threshold with
        | .error e => .error e
        | .ok s2 => .ok (decide (s1 = s2))

/-! ### Arithmetic facts about the embedded utility functions -/

lemma q_pos : 0 < q := by norm_num [q]

lemma one_lt_q : 1 < q := by norm_num [q]

lemma natCast_mod_q (z : ℕ) : ((z % q : ℕ) : ZMod q) = (z : ZMod q) := by
  conv_rhs => rw [← Nat.mod_add_div z q]
  push_cast
  simp

lemma egcdAux_gcd :
    ∀ fuel a b : ℕ, a ≤ fuel → (egcdAux fuel a b).1 = Nat.gcd a b := by
  intro fuel
  induction fuel with
  | zero =>
    intro a b ha
    have ha0 : a = 0 := by omega
    subst ha0
    simp [egcdAux]
  | succ fuel ih =>
    intro a b ha
    match a with
    | 0 => simp [egcdAux]
    | a + 1 =>
      have hrec : b % (a + 1) ≤ fuel := by
        have := Nat.mod_lt b (show 0 < a + 1 by omega)
        omega
      show (egcdAux (fuel + 1) (a + 1) b).1 = Nat.gcd (a + 1) b
      rw [egcdAux]
      simp only
      rw [ih _ _ hrec]
      exact (Nat.gcd_rec _ _).symm

lemma egcdAux_bezout :
    ∀ fuel a b : ℕ, a ≤ fuel →
      ((egcdAux fuel a b).1 : ℤ)
        = a * (egcdAux fuel a b).2.1 + b * (egcdAux fuel a b).2.2 := by
  intro fuel
  induction fuel with
  | zero =>
    intro a b ha
    have ha0 : a = 0 := by omega
    subst ha0
    simp [egcdAux]
  | succ fuel ih =>
    intro a b ha
    match a with
    | 0 => simp [egcdAux]
    | a + 1 =>
      have hpos : 0 < a + 1 := by omega
      have hrec : b % (a + 1) ≤ fuel := by
        have := Nat.mod_lt b hpos
        omega
      have hmod : ((b % (a + 1) : ℕ) : ℤ)
          = (b : ℤ) - ((a + 1 : ℕ) : ℤ) * ((b / (a + 1) : ℕ) : ℤ) := by
        have h0 : b % (a + 1) + (a + 1) * (b / (a + 1)) = b := Nat.mod_add_div b (a + 1)
        have h1 : ((b % (a + 1) : ℕ) : ℤ) + ((a + 1 : ℕ) : ℤ) * ((b / (a + 1) : ℕ) : ℤ)
            = (b : ℤ) := by exact_mod_cast congrArg (fun z : ℕ => (z : ℤ)) h0
        linarith
      have hb := ih (b % (a + 1)) (a + 1) hrec
      rw [egcdAux]
      simp only
      rw [hb, hmod]
      push_cast
      ring

lemma mod_inverse_ok_iff (a m : ℕ) :
    (∃ r, mod_inverse a m = .ok r) ↔ Nat.gcd a m = 1 := by
  unfold mod_inverse extended_gcd_signed
  rw [egcdAux_gcd a a m le_rfl]
  by_cases h : Nat.gcd a m = 1
  · simp [h]
  · simp [h]

lemma mod_inverse_mul (a m r : ℕ) (hm : 0 < m)
    (h : mod_inverse a m = .ok r) : ((a : ZMod m)) * ((r : ZMod m)) = 1 := by
  unfold mod_inverse extended_gcd_signed at h
  rw [egcdAux_gcd a a m le_rfl] at h
  by_cases hg : Nat.gcd a m = 1
  · rw [hg] at h
    rw [if_neg (by norm_num)] at h
    have hr2 := Except.ok.inj h
    set x : ℤ := (egcdAux a a m).2.1 with hx
    have hbez : (1 : ℤ) = a * x + m * (egcdAux a a m).2.2 := by
      have hb := egcdAux_bezout a a m le_rfl
      rw [egcdAux_gcd a a m le_rfl, hg] at hb
      exact_mod_cast hb
    have hcastx : (((x % (m : ℤ) + m) % m : ℤ) : ZMod m) = ((x : ℤ) : ZMod m) := by
      rw [ZMod.intCast_eq_intCast_iff]
      have h1 : ((x % (m : ℤ) + m) % m) % m = (x % (m : ℤ) + m) % m :=
        Int.emod_emod_of_dvd _ dvd_rfl
      have h2 : (x % (m : ℤ) + m) % m = x % (m : ℤ) := by
        have h3 := Int.add_mul_emod_self_left (a := x % (m : ℤ)) (b := (m : ℤ)) (c := 1)
        simp only [mul_one] at h3
        rw [Int.emod_emod_of_dvd x dvd_rfl] at h3
        exact h3
      show ((x % (m : ℤ) + m) % m) % m = x % (m : ℤ)
      rw [h1, h2]
    have hnonneg : 0 ≤ (x % (m : ℤ) + m) % m := by
      apply Int.emod_nonneg
      omega
    have hr : (r : ℤ) = (x % (m : ℤ) + m) % m := by
      rw [← hr2]
      exact Int.toNat_of_nonneg hnonneg
    have hrx : ((r : ℕ) : ZMod m) = ((x : ℤ) : ZMod m) := by
      have h4 : ((r : ℤ) : ZMod m) = ((x : ℤ) : ZMod m) := by
        rw [hr, hcastx]
      rw [← h4]
      push_cast
      ring
    rw [hrx]
    have h5 := congrArg (fun z : ℤ => ((z : ZMod m))) hbez
    push_cast at h5
    rw [show ((m : ℕ) : ZMod m) = 0 by simp, zero_mul, add_zero] at h5
    exact h5.symm
  · simp [hg] at h

lemma diffModQ_cast (x k : ℕ) :
    ((diffModQ x k : ℕ) : ZMod q) = (x : ZMod q) - (k : ZMod q) := by
  by_cases h : k ≤ x
  · simp only [diffModQ, h, if_true]
    rw [natCast_mod_q, Nat.cast_sub h]
  · simp only [diffModQ, h, if_false]
    have hxk : x ≤ k := by omega
    have hle : (k - x) % q ≤ q := le_of_lt (Nat.mod_lt _ q_pos)
    rw [Nat.cast_sub hle, natCast_mod_q, Nat.cast_sub hxk]
    rw [show ((q : ℕ) : ZMod q) = 0 by simp]
    ring

/-- The pair fold of lagrange_coefficient splits into two independent folds
over the filtered index list. -/
lemma lagrangeFold_split (i j : ℕ) (idx : List ℕ) :
    ∀ nd : ℕ × ℕ,
      idx.foldl
        (fun nd k =>
          if k ≠ i then (nd.1 * diffModQ j k % q, nd.2 * diffModQ i k % q) else nd)
        nd
        = ((idx.filter (fun k => k ≠ i)).foldl (fun n k => n * diffModQ j k % q) nd.1,
           (idx.filter (fun k => k ≠ i)).foldl (fun d k => d * diffModQ i k % q) nd.2) := by
  induction idx with
  | nil => intro nd; simp
  | cons k rest ih =>
    intro nd
    by_cases hk : k ≠ i
    · simp only [List.foldl_cons, List.filter_cons, hk, if_pos, decide_eq_true_eq]
      rw [if_pos hk, ih]
      simp [hk]
    · simp only [List.foldl_cons, List.filter_cons]
      rw [if_neg hk, ih]
      simp [hk]

lemma foldMulModQ_cast (g : ℕ → ℕ) (l : List ℕ) :
    ∀ n : ℕ, ((l.foldl (fun n k => n * g k % q) n : ℕ) : ZMod q)
      = (n : ZMod q) * (l.map (fun k => ((g k : ℕ) : ZMod q))).prod := by
  induction l with
  | nil => intro n; simp
  | cons k rest ih =>
    intro n
    simp only [List.foldl_cons, List.map_cons, List.prod_cons]
    rw [ih, natCast_mod_q]
    push_cast
    ring

lemma foldMulModQ_lt (g : ℕ → ℕ) (l : List ℕ) :
    ∀ n : ℕ, n < q → (l.foldl (fun n k => n * g k % q) n) < q := by
  induction l with
  | nil => intro n h; simpa using h
  | cons k rest ih =>
    intro n _
    simp only [List.foldl_cons]
    exact ih _ (Nat.mod_lt _ q_pos)

/-- The numerator product of lagrange_coefficient, cast into the field. -/
lemma lagrangeNumDen_fst_cast (idx : List ℕ) (i j : ℕ) :
    (((lagrangeNumDen idx i j).1 : ℕ) : ZMod q)
      = ((idx.filter (fun k => k ≠ i)).map
          (fun k : ℕ => (j : ZMod q) - (k : ZMod q))).prod := by
  unfold lagrangeNumDen
  rw [lagrangeFold_split i j idx (1, 1)]
  simp only
  rw [foldMulModQ_cast (diffModQ j)]
  simp only [diffModQ_cast]
  simp

/-- The denominator product of lagrange_coefficient, cast into the field. -/
lemma lagrangeNumDen_snd_cast (idx : List ℕ) (i j : ℕ) :
    (((lagrangeNumDen idx i j).2 : ℕ) : ZMod q)
      = ((idx.filter (fun k => k ≠ i)).map
          (fun k : ℕ => (i : ZMod q) - (k : ZMod q))).prod := by
  unfold lagrangeNumDen
  rw [lagrangeFold_split i j idx (1, 1)]
  simp only
  rw [foldMulModQ_cast (diffModQ i)]
  simp only [diffModQ_cast]
  simp

lemma lagrangeNumDen_snd_lt (idx : List ℕ) (i j : ℕ) :
    (lagrangeNumDen idx i j).2 < q := by
  unfold lagrangeNumDen
  rw [lagrangeFold_split i j idx (1, 1)]
  exact foldMulModQ_lt _ _ 1 one_lt_q

/-- The value of a successful lagrange_coefficient call satisfies the field
identity c times the denominator product equals the numerator product. -/
lemma lagrange_coefficient_mul_den (idx : List ℕ) (i j : ℕ) (c : Scalar)
    (h : lagrange_coefficient idx i j = .ok c) :
    c * ((idx.filter (fun k => k ≠ i)).map
          (fun k : ℕ => (i : ZMod q) - (k : ZMod q))).prod
      = ((idx.filter (fun k => k ≠ i)).map
          (fun k : ℕ => (j : ZMod q) - (k : ZMod q))).prod := by
  rcases hmi : mod_inverse (lagrangeNumDen idx i j).2 q with e | dinv
  · simp only [lagrange_coefficient, hmi] at h
    exact Except.noConfusion h
  · simp only [lagrange_coefficient, hmi] at h
    have hc := Except.ok.inj h
    have hmul := mod_inverse_mul _ q _ q_pos hmi
    rw [← hc]
    push_cast
    rw [← lagrangeNumDen_fst_cast idx i j, ← lagrangeNumDen_snd_cast idx i j]
    rw [mul_assoc, mul_comm ((dinv : ℕ) : ZMod q), hmul, mul_one]

/-- lagrange_coefficient succeeds whenever the other indices stay distinct
from i in the field. -/
lemma lagrange_coefficient_ok (idx : List ℕ) (i j : ℕ)
    (hdist : ∀ k ∈ idx, k ≠ i → ((i : ZMod q)) ≠ ((k : ZMod q))) :
    ∃ c, lagrange_coefficient idx i j = .ok c := by
  have hden : (((lagrangeNumDen idx i j).2 : ℕ) : ZMod q) ≠ 0 := by
    rw [lagrangeNumDen_snd_cast]
    apply List.prod_ne_zero
    intro h0mem
    rcases List.mem_map.mp h0mem with ⟨k, hk, hk0⟩
    rcases List.mem_filter.mp hk with ⟨hkidx, hkne⟩
    exact hdist k hkidx (by simpa using hkne) (sub_eq_zero.mp hk0)
  have hne : (lagrangeNumDen idx i j).2 ≠ 0 := by
    intro h0
    rw [h0] at hden
    simp at hden
  have hlt := lagrangeNumDen_snd_lt idx i j
  have hcop : Nat.gcd (lagrangeNumDen idx i j).2 q = 1 := by
    have hnd : ¬ q ∣ (lagrangeNumDen idx i j).2 :=
      Nat.not_dvd_of_pos_of_lt (Nat.pos_of_ne_zero hne) hlt
    have hcq := (Nat.Prime.coprime_iff_not_dvd q_prime).mpr hnd
    exact Nat.coprime_comm.mp hcq
  obtain ⟨r, hr⟩ := (mod_inverse_ok_iff _ q).mpr hcop
  exact ⟨(((lagrangeNumDen idx i j).1 * r : ℕ) : Scalar),
    by simp only [lagrange_coefficient, hr]⟩

/-- Lagrange interpolation at zero: the coefficients computed by
lagrange_coefficient recombine the values of any polynomial of low enough
degree at distinct small indices into its value at zero. -/
lemma sum_lagrange_zero (idx : List ℕ) (hnd : idx.Nodup) (hlt : ∀ i ∈ idx, i < q)
    (c : ℕ → Scalar) (hc : ∀ i ∈ idx, lagrange_coefficient idx i 0 = .ok (c i))
    (f : Polynomial (ZMod q)) (hdeg : f.natDegree < idx.length) :
    (idx.map (fun i : ℕ => c i * Polynomial.eval ((i : ℕ) : ZMod q) f)).sum
      = Polynomial.eval 0 f := by
  classical
  by_cases hf0 : f = 0
  · subst hf0
    simp
  have hcard : idx.toFinset.card = idx.length := List.toFinset_card_of_nodup hnd
  have hinj : Set.InjOn (fun i : ℕ => (i : ZMod q)) idx.toFinset := by
    intro a ha b hb hab
    have ha2 : a < q := hlt a (List.mem_toFinset.mp ha)
    have hb2 : b < q := hlt b (List.mem_toFinset.mp hb)
    have hval := congrArg ZMod.val hab
    simp only at hval
    rwa [ZMod.val_cast_of_lt ha2, ZMod.val_cast_of_lt hb2] at hval
  have hdeg2 : f.degree < (idx.toFinset.card : WithBot ℕ) := by
    rw [hcard]
    exact (Polynomial.natDegree_lt_iff_degree_lt hf0).mp hdeg
  have hinterp := Lagrange.eq_interpolate hinj hdeg2
  have heval0 : Polynomial.eval 0 f
      = ∑ i ∈ idx.toFinset, Polynomial.eval ((i : ℕ) : ZMod q) f
          * Polynomial.eval 0 (Lagrange.basis idx.toFinset (fun i : ℕ => (i : ZMod q)) i) := by
    conv_lhs => rw [hinterp]
    rw [Lagrange.interpolate_apply, Polynomial.eval_finset_sum]
    refine Finset.sum_congr rfl fun i _ => ?_
    rw [Polynomial.eval_mul, Polynomial.eval_C]
  have hbasis : ∀ i ∈ idx.toFinset,
      Polynomial.eval 0 (Lagrange.basis idx.toFinset (fun i : ℕ => (i : ZMod q)) i)
        = c i := by
    intro i hi
    have hiidx : i ∈ idx := List.mem_toFinset.mp hi
    have hfilnd : (idx.filter (fun k => k ≠ i)).Nodup := hnd.filter _
    have hset : (idx.filter (fun k => k ≠ i)).toFinset = idx.toFinset.erase i := by
      ext a
      simp [List.mem_filter, Finset.mem_erase, and_comm]
    have hprodL : ∀ g : ℕ → ZMod q,
        ∏ j ∈ idx.toFinset.erase i, g j
          = ((idx.filter (fun k => k ≠ i)).map g).prod := by
      intro g
      rw [← hset, List.prod_toFinset g hfilnd]
    have hD : ((idx.filter (fun k => k ≠ i)).map
        (fun k : ℕ => (i : ZMod q) - (k : ZMod q))).prod ≠ 0 := by
      apply List.prod_ne_zero
      intro h0mem
      rcases List.mem_map.mp h0mem with ⟨k, hk, hk0⟩
      rcases List.mem_filter.mp hk with ⟨hkidx, hkne⟩
      have hik : (i : ZMod q) ≠ (k : ZMod q) := by
        intro hik
        have hkne2 : k ≠ i := by simpa using hkne
        have hi2 : i < q := hlt i hiidx
        have hk2 : k < q := hlt k hkidx
        have hval := congrArg ZMod.val hik
        rw [ZMod.val_cast_of_lt hi2, ZMod.val_cast_of_lt hk2] at hval
        exact hkne2 hval.symm
      exact hik (sub_eq_zero.mp hk0)
    have hkey := lagrange_coefficient_mul_den idx i 0 (c i) (hc i hiidx)
    simp only [Nat.cast_zero] at hkey
    rw [Lagrange.basis, Polynomial.eval_prod]
    have hdiv : ∀ j ∈ idx.toFinset.erase i,
        Polynomial.eval 0
            (Lagrange.basisDivisor ((i : ℕ) : ZMod q) ((j : ℕ) : ZMod q))
          = ((i : ZMod q) - (j : ZMod q))⁻¹ * ((0 : ZMod q) - (j : ZMod q)) := by
      intro j _
      rw [Lagrange.basisDivisor]
      simp
    rw [Finset.prod_congr rfl hdiv, Finset.prod_mul_distrib, Finset.prod_inv_distrib]
    rw [hprodL (fun k : ℕ => (i : ZMod q) - (k : ZMod q)),
      hprodL (fun k : ℕ => (0 : ZMod q) - (k : ZMod q))]
    rw [← hkey, mul_comm (c i), ← mul_assoc, inv_mul_cancel₀ hD, one_mul]
  calc (idx.map (fun i : ℕ => c i * Polynomial.eval ((i : ℕ) : ZMod q) f)).sum
      = ∑ i ∈ idx.toFinset, c i * Polynomial.eval ((i : ℕ) : ZMod q) f :=
        (List.sum_toFinset _ hnd).symm
    _ = ∑ i ∈ idx.toFinset, Polynomial.eval ((i : ℕ) : ZMod q) f
          * Polynomial.eval 0 (Lagrange.basis idx.toFinset (fun i : ℕ => (i : ZMod q)) i) := by
        refine Finset.sum_congr rfl fun i hi => ?_
        rw [hbasis i hi, mul_comm]
    _ = Polynomial.eval 0 f := heval0.symm

/-! ### Coefficient lists as polynomials, and byte-string lemmas -/

/-- The Mathlib polynomial with the given coefficient list, lowest degree
first. -/
noncomputable def polyOf : List Scalar → Polynomial (ZMod q)
  | [] => 0
  | a :: rest => Polynomial.C a + Polynomial.X * polyOf rest

lemma polyOf_nil : polyOf [] = 0 := by rw [polyOf]

lemma polyOf_cons (a : Scalar) (l : List Scalar) :
    polyOf (a :: l) = Polynomial.C a + Polynomial.X * polyOf l := by rw [polyOf]

lemma polyOf_eval_fold (z : Scalar) :
    ∀ (l : List Scalar) (acc pw : Scalar),
      (l.foldl (fun (st : Scalar × Scalar) coeff =>
        (scalar_add st.1 (scalar_mul coeff st.2), scalar_mul st.2 z)) (acc, pw)).1
        = acc + pw * (polyOf l).eval z := by
  intro l
  induction l with
  | nil =>
    intro acc pw
    rw [List.foldl_nil, polyOf_nil]
    simp
  | cons a rest ih =>
    intro acc pw
    rw [List.foldl_cons]
    rw [ih (scalar_add acc (scalar_mul a pw)) (scalar_mul pw z)]
    simp only [scalar_add, scalar_mul, polyOf_cons, Polynomial.eval_add,
      Polynomial.eval_C, Polynomial.eval_mul, Polynomial.eval_X]
    ring

/-- Polynomial::evaluate agrees with evaluation of the corresponding
polynomial at the u32-truncated point. -/
lemma evaluate_eq_polyOf (p : Poly) (x : ℕ) :
    p.evaluate x = (polyOf p.coefficients).eval (scalar_from_u32 x) := by
  unfold Poly.evaluate
  rw [polyOf_eval_fold (scalar_from_u32 x) p.coefficients 0 1]
  ring

lemma scalar_from_u32_eq (x : ℕ) (h : x < 2 ^ 32) :
    scalar_from_u32 x = ((x : ℕ) : Scalar) := by
  unfold scalar_from_u32
  rw [Nat.mod_eq_of_lt h]

lemma polyOf_natDegree_lt :
    ∀ l : List Scalar, l ≠ [] → (polyOf l).natDegree < l.length := by
  intro l
  induction l with
  | nil =>
    intro h
    exact absurd rfl h
  | cons a rest ih =>
    intro _
    by_cases hr : rest = []
    · subst hr
      rw [polyOf_cons, polyOf_nil]
      simp
    · have h1 : (polyOf rest).natDegree < rest.length := ih hr
      have h2 : (Polynomial.C a + Polynomial.X * polyOf rest).natDegree
          ≤ max (Polynomial.C a).natDegree (Polynomial.X * polyOf rest).natDegree :=
        Polynomial.natDegree_add_le _ _
      have h3 : (Polynomial.X * polyOf rest).natDegree
          ≤ 1 + (polyOf rest).natDegree := by
        calc (Polynomial.X * polyOf rest).natDegree
            ≤ (Polynomial.X : Polynomial (ZMod q)).natDegree + (polyOf rest).natDegree :=
              Polynomial.natDegree_mul_le
          _ = 1 + (polyOf rest).natDegree := by rw [Polynomial.natDegree_X]
      have h4 : (Polynomial.C a).natDegree = 0 := Polynomial.natDegree_C a
      rw [polyOf_cons]
      simp only [List.length_cons]
      omega

lemma pad_or_truncate_length (d : List ℕ) (len : ℕ) :
    (pad_or_truncate d len).length = len := by
  unfold pad_or_truncate
  simp only [List.length_append, List.length_take, List.length_replicate]
  omega

lemma xor_bytes_length (a b : List ℕ) :
    (xor_bytes a b).length = min a.length b.length := by
  simp [xor_bytes]

lemma xor_round (p r s : ℕ) : ((s ^^^ (p ^^^ r)) ^^^ s) ^^^ p = r := by
  have h1 : (s ^^^ (p ^^^ r)) ^^^ s = p ^^^ r := by
    rw [Nat.xor_comm s (p ^^^ r), Nat.xor_assoc, Nat.xor_self, Nat.xor_zero]
  rw [h1, Nat.xor_comm p r, Nat.xor_assoc, Nat.xor_self, Nat.xor_zero]

/-- Unmasking: xoring twice with the same two equal-length masks restores
the message. -/
lemma xor_unmask :
    ∀ m a b : List ℕ, a.length = m.length → b.length = m.length →
      xor_bytes (xor_bytes (xor_bytes b (xor_bytes a m)) b) a = m := by
  intro m
  induction m with
  | nil =>
    intro a b ha hb
    have ha0 : a = [] := List.length_eq_zero.mp ha
    have hb0 : b = [] := List.length_eq_zero.mp hb
    subst ha0
    subst hb0
    rfl
  | cons x mrest ih =>
    intro a b ha hb
    cases a with
    | nil => simp at ha
    | cons a0 arest =>
      cases b with
      | nil => simp at hb
      | cons b0 brest =>
        simp only [xor_bytes, List.zipWith_cons_cons]
        simp only [List.length_cons] at ha hb
        exact congrArg₂ List.cons (xor_round a0 x b0)
          (ih arest brest (by omega) (by omega))

/-! ### Concrete primitive instantiations used in closed evaluations -/

/-- A concrete but arbitrary instantiation of the external primitives (all
hash values 1, empty serializations); closed theorems evaluate the model at
it. -/
def prims0 : Primitives :=
  ⟨fun _ => [], fun _ => 1, fun _ => [], fun _ => [], fun _ _ _ => 1,
    fun _ _ => 1⟩

/-- A primitive instantiation whose Schnorr challenge depends on the
context, to exercise context binding. -/
def primsCtx : Primitives :=
  ⟨fun _ => [], fun _ => 1, fun _ => [], fun _ => [], fun _ _ _ => 1,
    fun ctx _ => if ctx = [0] then 1 else 2⟩

/-! ### Claim C2 -/

/-- C2 (code_bug): the spec says the core never panics on adversarial
input and the claim asserts schnorr_verify returns a boolean for every
proof, in particular mu = 0.  The code calls
SecretKey::from_slice(mu).unwrap(), which panics when mu is the zero
scalar (modelled as the none result): at the concrete adversarial proof
(R = P, mu = 0) against VK = P, and in general for every primitives
instance, verification key, context and commitment, the function panics
instead of returning a boolean. -/
theorem C2_schnorr_verify_panics_on_zero_mu :
    schnorr_verify prims0 ⟨1, 0⟩ 1 [] = none ∧
    ∀ (pr : Primitives) (pk r : Point) (ctx : List ℕ),
      schnorr_verify pr ⟨r, 0⟩ pk ctx = none := by
  constructor
  · decide
  · intro pr pk r ctx
    simp [schnorr_verify, secretKeyOfScalar]

/-! ### Claim C4 -/

/-- C4 counterexample: at the adversarial ciphertext with delta = 0 the
sanity check inequality delta * P ≠ D + H3(D,E,F) * E holds (the left side
is the point at infinity), so the claim demands InvalidCiphertext, but
share_decrypt fails first inside SecretKey::from_slice(delta) with the
converted secp256k1 error. -/
theorem C4_counterexample :
    share_decrypt prims0 ⟨1, 1, [], 0⟩ ⟨1, 1, 1⟩ = .error .Secp256k1Error ∧
    (Except.error .Secp256k1Error : RRes DecryptionShare)
      ≠ .error .InvalidCiphertext := by
  decide

/-- C4 (amended): for a representable ciphertext (D and E actual points),
share_decrypt raises InvalidCiphertext exactly when the conversions
preceding the sanity check succeed (delta nonzero, H3 value nonzero,
D + H3 * E not the point at infinity) and the check fails; a zero delta, a
zero H3 value or an infinite sum give the converted secp256k1 error
instead, as does a zero member key psi after a passing check; otherwise the
share (index, psi * D) is returned. -/
theorem C4_share_decrypt_characterization (pr : Primitives) (c : Ciphertext)
    (ps : PrivateKeyShare) (hd : c.d ≠ 0) (he : c.e ≠ 0) :
    share_decrypt pr c ps =
      if c.delta = 0 then .error .Secp256k1Error
      else if pr.h3 c.d c.e c.f = 0 then .error .Secp256k1Error
      else if c.d + c.e * pr.h3 c.d c.e c.f = 0 then .error .Secp256k1Error
      else if c.delta ≠ c.d + c.e * pr.h3 c.d c.e c.f then .error .InvalidCiphertext
      else if ps.psi_i = 0 then .error .Secp256k1Error
      else .ok ⟨ps.index, c.d * ps.psi_i⟩ := by
  unfold share_decrypt
  by_cases h1 : c.delta = 0
  · simp [h1, secretKeyOfScalar]
  by_cases h2 : pr.h3 c.d c.e c.f = 0
  · simp [h1, h2, secretKeyOfScalar, mul_tweak]
  have hmul : c.e * pr.h3 c.d c.e c.f ≠ 0 := mul_ne_zero he h2
  by_cases h3 : c.d + c.e * pr.h3 c.d c.e c.f = 0
  · simp [h1, h2, h3, hmul, secretKeyOfScalar, mul_tweak, combine]
  by_cases h4 : c.delta = c.d + c.e * pr.h3 c.d c.e c.f
  · by_cases h5 : ps.psi_i = 0
    · simp [h1, h2, h3, h4, h5, hmul, secretKeyOfScalar, mul_tweak, combine,
        pubOfSecret]
    · have hdpsi : c.d * ps.psi_i ≠ 0 := mul_ne_zero hd h5
      simp [h1, h2, h3, h4, h5, hmul, hdpsi, secretKeyOfScalar, mul_tweak,
        combine, pubOfSecret]
  · simp [h1, h2, h3, h4, hmul, secretKeyOfScalar, mul_tweak, combine,
      pubOfSecret]

/-- Closed instance of the C4 characterization at a well-formed concrete
ciphertext, discharging both hypotheses. -/
theorem C4_witness :
    share_decrypt prims0 ⟨1, 1, [], 2⟩ ⟨1, 2, 2⟩ = .ok ⟨1, 2⟩ := by
  have h := C4_share_decrypt_characterization prims0 ⟨1, 1, [], 2⟩ ⟨1, 2, 2⟩
    (by decide) (by decide)
  rw [h]
  decide

/-! ### Claim C9 -/

lemma allVerify_eq_true_iff (pr : Primitives) (ctx : List ℕ) :
    ∀ l : List (Proof × Point),
      (allVerify pr ctx l = some true
        ↔ ∀ pv ∈ l, verify_share pr pv.1 pv.2 ctx = some true) := by
  intro l
  induction l with
  | nil => simp [allVerify]
  | cons pv rest ih =>
    rcases hv : verify_share pr pv.1 pv.2 ctx with _ | b
    · simp [allVerify, hv]
    · cases b
      · simp [allVerify, hv]
      · simp [allVerify, hv, ih]

/-- C9 (confirmed): batch_verify returns false on a length mismatch,
returns true on two empty slices, and otherwise returns true exactly when
every zipped pair passes verify_share under the shared context (a panic of
any verify_share before a failing pair propagates, making the left side
not equal to true as well). -/
theorem C9_batch_verify (pr : Primitives) (ctx : List ℕ) :
    (∀ (proofs : List Proof) (vks : List Point), proofs.length ≠ vks.length →
      batch_verify pr proofs vks ctx = some false)
    ∧ batch_verify pr [] [] ctx = some true
    ∧ ∀ (proofs : List Proof) (vks : List Point), proofs.length = vks.length →
        (batch_verify pr proofs vks ctx = some true ↔
          ∀ pv ∈ proofs.zip vks, verify_share pr pv.1 pv.2 ctx = some true) := by
  refine ⟨?_, ?_, ?_⟩
  · intro proofs vks h
    simp [batch_verify, h]
  · simp [batch_verify, allVerify]
  · intro proofs vks h
    simp only [batch_verify, h, if_neg (by omega : ¬ vks.length ≠ vks.length)]
    exact allVerify_eq_true_iff pr ctx (proofs.zip vks)

/-- Closed instance of C9: a mismatched call returns false, the empty call
returns true, and a one-element call verifies through the equivalence. -/
theorem C9_witness :
    batch_verify prims0 [⟨1, 2⟩] [] [] = some false
    ∧ batch_verify prims0 [] [] [] = some true
    ∧ batch_verify prims0 [⟨1, 2⟩] [1] [] = some true := by
  refine ⟨(C9_batch_verify prims0 []).1 [⟨1, 2⟩] [] (by decide),
    (C9_batch_verify prims0 []).2.1,
    ((C9_batch_verify prims0 []).2.2 [⟨1, 2⟩] [1] (by decide)).mpr ?_⟩
  decide

/-! ### Association list and finalize helpers -/

lemma lookup_insertR {α : Type} (k : ℕ) (v : α) :
    ∀ l : List (ℕ × α), lookup k (insertR k v l) = some v := by
  intro l
  induction l with
  | nil => simp [insertR, lookup]
  | cons kv rest ih =>
    by_cases h : kv.1 = k
    · simp [insertR, h, lookup]
    · simp [insertR, h, lookup, ih]

lemma foldl_scalar_add {α : Type} (f : α → Scalar) :
    ∀ (l : List α) (a : Scalar),
      l.foldl (fun acc x => scalar_add acc (f x)) a = a + (l.map f).sum := by
  intro l
  induction l with
  | nil => intro a; simp
  | cons x rest ih =>
    intro a
    rw [List.foldl_cons, ih (scalar_add a (f x))]
    simp only [scalar_add, List.map_cons, List.sum_cons]
    ring

lemma aggS_eq (p : DKGParticipant) :
    aggS p = p.f_0.evaluate p.index
      + (p.shares_received.map (fun kv => kv.2.1)).sum := by
  unfold aggS
  exact foldl_scalar_add _ _ _

lemma aggZ_eq (p : DKGParticipant) :
    aggZ p = p.f_1.evaluate p.index
      + (p.shares_received.map (fun kv => kv.2.2)).sum := by
  unfold aggZ
  exact foldl_scalar_add _ _ _

lemma mod_inverse_error (a m : ℕ) (e : DIBTDError)
    (h : mod_inverse a m = .error e) : e = .InvalidThreshold 0 0 := by
  unfold mod_inverse at h
  by_cases hg : (extended_gcd_signed a m).1 ≠ 1
  · rw [if_pos hg] at h
    exact (Except.error.inj h).symm
  · rw [if_neg hg] at h
    exact Except.noConfusion h

lemma lagrange_coefficient_error (idx : List ℕ) (i j : ℕ) (e : DIBTDError)
    (h : lagrange_coefficient idx i j = .error e) : e = .InvalidThreshold 0 0 := by
  rcases hmi : mod_inverse (lagrangeNumDen idx i j).2 q with e2 | dinv
  · simp only [lagrange_coefficient, hmi] at h
    rw [← Except.error.inj h]
    exact mod_inverse_error _ _ _ hmi
  · simp only [lagrange_coefficient, hmi] at h
    exact Except.noConfusion h

lemma finalizeAccum_error_ne_keygen (ss : List (ℕ × MasterSecretShare))
    (idx : List ℕ) :
    ∀ (rest : List ℕ) (acc : Option Point × Option Point) (e : DIBTDError),
      finalizeAccum ss idx rest acc = .error e → e ≠ .KeyGenerationFailed := by
  intro rest
  induction rest with
  | nil =>
    intro acc e h
    simp [finalizeAccum] at h
  | cons i rest ih =>
    intro acc e h
    rcases hl : lookup i ss with _ | share
    · simp only [finalizeAccum, hl] at h
      rw [← Except.error.inj h]
      intro hc
      exact DIBTDError.noConfusion hc
    · rcases hc : lagrange_coefficient idx i 0 with e2 | coeff
      · simp only [finalizeAccum, hl, hc, rres_bind_error] at h
        rw [← Except.error.inj h, lagrange_coefficient_error idx i 0 e2 hc]
        intro hcon
        exact DIBTDError.noConfusion hcon
      · simp only [finalizeAccum, hl, hc, rres_bind_ok] at h
        by_cases hs : scalar_mul share.s_i coeff = 0
        · simp only [secretKeyOfScalar, hs, if_pos, rres_bind_error] at h
          rw [← Except.error.inj h]
          intro hcon
          exact DIBTDError.noConfusion hcon
        by_cases hz : scalar_mul share.z_i coeff = 0
        · simp only [secretKeyOfScalar, hs, hz, if_neg, if_pos, rres_bind_ok,
            rres_bind_error, if_true, if_false] at h
          rw [← Except.error.inj h]
          intro hcon
          exact DIBTDError.noConfusion hcon
        simp only [secretKeyOfScalar, if_neg hs, if_neg hz, rres_bind_ok] at h
        rcases acc with ⟨accY, accG⟩
        rcases accY with _ | y0
        · rcases accG with _ | g0
          · simp only [rres_bind_ok] at h
            exact ih _ _ h
          · by_cases hcg : g0 + pubOfSecret (scalar_mul share.z_i coeff) = 0
            · simp only [combine, if_pos hcg, rres_bind_error, rres_bind_ok] at h
              rw [← Except.error.inj h]
              intro hcon
              exact DIBTDError.noConfusion hcon
            · simp only [combine, if_neg hcg, rres_bind_ok] at h
              exact ih _ _ h
        · by_cases hcy : y0 + pubOfSecret (scalar_mul share.s_i coeff) = 0
          · simp only [combine, if_pos hcy, rres_bind_error] at h
            rw [← Except.error.inj h]
            intro hcon
            exact DIBTDError.noConfusion hcon
          · rcases accG with _ | g0
            · simp only [combine, if_neg hcy, rres_bind_ok] at h
              exact ih _ _ h
            · by_cases hcg : g0 + pubOfSecret (scalar_mul share.z_i coeff) = 0
              · simp only [combine, if_neg hcy, if_pos hcg, rres_bind_error,
                  rres_bind_ok] at h
                rw [← Except.error.inj h]
                intro hcon
                exact DIBTDError.noConfusion hcon
              · simp only [combine, if_neg hcy, if_neg hcg, rres_bind_ok] at h
                exact ih _ _ h

/-- Decomposition of a successful finalize call. -/
lemma finalize_ok_parts (st : DKGProtocol) (mpk : MasterPublicKey)
    (ss : List (ℕ × MasterSecretShare))
    (h : st.finalize = some (.ok (mpk, ss))) :
    ss = secretSharesOf st
    ∧ ¬ st.participants.length < st.t
    ∧ ∃ resY resG,
        finalizeAccum (secretSharesOf st) (List.range' 1 st.t)
            (List.range' 1 st.t) (none, none) = .ok (some resY, some resG)
        ∧ mpk.y = resY ∧ mpk.gamma = resG ∧ mpk.params = ⟨st.n, st.t⟩ := by
  unfold DKGProtocol.finalize at h
  by_cases hlen : st.participants.length < st.t
  · rw [if_pos hlen] at h
    simp at h
  · rw [if_neg hlen] at h
    rcases hacc : finalizeAccum (secretSharesOf st) (List.range' 1 st.t)
        (List.range' 1 st.t) (none, none) with e | pair
    · rw [hacc] at h
      simp at h
    · rw [hacc] at h
      rcases pair with ⟨yo, go⟩
      rcases yo with _ | y
      · simp at h
      rcases go with _ | g
      · simp at h
      simp only [Option.some.injEq] at h
      have h2 := Except.ok.inj h
      have hmpk : mpk = ⟨y, g, ⟨st.n, st.t⟩⟩ := (congrArg Prod.fst h2).symm
      have hss : ss = secretSharesOf st := (congrArg Prod.snd h2).symm
      refine ⟨hss, hlen, y, g, rfl, ?_, ?_, ?_⟩ <;> rw [hmpk]

/-! ### Claim C5 -/

/-- C5 counterexample: a completed participant whose aggregated share s_1 is
zero (own evaluation 1 plus a received share q - 1).  finalize fails, but
with the converted secp256k1 error from SecretKey::from_slice, not with
KeyGenerationFailed as the claim states. -/
theorem C5_counterexample :
    DKGProtocol.finalize
        ⟨[(1, ⟨1, ⟨[1]⟩, ⟨[1]⟩, [], [], [(2, (-1, 1))]⟩)], 2, 1⟩
      = some (.error .Secp256k1Error)
    ∧ DIBTDError.Secp256k1Error ≠ DIBTDError.KeyGenerationFailed := by
  constructor
  · decide
  · intro hc
    exact DIBTDError.noConfusion hc

/-- C5 (amended): a zero aggregated share s_i or z_i with i between 1 and t
makes finalize fail, but with the converted secp256k1 error from
SecretKey::from_slice rather than KeyGenerationFailed: no execution of
finalize returns the KeyGenerationFailed tag at all (its error outcomes are
InsufficientShares, DKGProtocolFailed, the InvalidThreshold(0,0) tag of
mod_inverse, and Secp256k1Error), and zero aggregated shares at indices
above t are not converted and cause no failure by themselves. -/
theorem C5_finalize_never_keygen_failed (st : DKGProtocol) (e : DIBTDError)
    (h : st.finalize = some (.error e)) : e ≠ .KeyGenerationFailed := by
  unfold DKGProtocol.finalize at h
  by_cases hlen : st.participants.length < st.t
  · rw [if_pos hlen] at h
    simp only [Option.some.injEq] at h
    rw [← Except.error.inj h]
    intro hc
    exact DIBTDError.noConfusion hc
  · rw [if_neg hlen] at h
    rcases hacc : finalizeAccum (secretSharesOf st) (List.range' 1 st.t)
        (List.range' 1 st.t) (none, none) with e2 | pair
    · rw [hacc] at h
      simp only [Option.some.injEq] at h
      rw [← Except.error.inj h]
      exact finalizeAccum_error_ne_keygen _ _ _ _ _ hacc
    · rw [hacc] at h
      rcases pair with ⟨yo, go⟩
      rcases yo with _ | y
      · simp at h
      rcases go with _ | g
      · simp at h
      simp at h

/-- Closed instance: the C5 state indeed makes finalize fail and the
amended theorem applies to it. -/
theorem C5_witness :
    DKGProtocol.finalize
        ⟨[(1, ⟨1, ⟨[1]⟩, ⟨[1]⟩, [], [], [(2, (-1, 1))]⟩)], 2, 1⟩
      = some (.error .Secp256k1Error)
    ∧ DIBTDError.Secp256k1Error ≠ DIBTDError.KeyGenerationFailed := by
  refine ⟨by decide, ?_⟩
  exact C5_finalize_never_keygen_failed
    ⟨[(1, ⟨1, ⟨[1]⟩, ⟨[1]⟩, [], [], [(2, (-1, 1))]⟩)], 2, 1⟩
    .Secp256k1Error (by decide)

/-! ### Claim C10 -/

/-- C10 (confirmed): receive_shares performs no validation of the sender
index (the second conjunct holds for every from index, including 0, values
above n, and from = to), stores the pair at key from in the shares_received
map of participant to, replacing any previous pair from the same sender;
it fails exactly when participant to is absent; and a successful finalize
aggregates every stored pair by summation: each secret share is the own
polynomial at the own index plus the sum of all stored first (resp.
second) components. -/
theorem C10_receive_shares (st : DKGProtocol) (to_idx from_idx : ℕ)
    (p : Scalar × Scalar) :
    (lookup to_idx st.participants = none →
      st.receive_shares to_idx from_idx p
        = .error (.DKGProtocolFailed "Participant not found"))
    ∧ (∀ part, lookup to_idx st.participants = some part →
        st.receive_shares to_idx from_idx p
          = .ok (DKGProtocol.mk
              (insertR to_idx
                (DKGParticipant.mk part.index part.f_0 part.f_1
                  part.commitments_0 part.commitments_1
                  (insertR from_idx p part.shares_received))
                st.participants)
              st.n st.t)
          ∧ lookup from_idx (insertR from_idx p part.shares_received) = some p)
    ∧ ∀ (mpk : MasterPublicKey) (ss : List (ℕ × MasterSecretShare)),
        st.finalize = some (.ok (mpk, ss)) →
        ss = st.participants.map (fun ip => (ip.1,
          ⟨ip.1,
            ip.2.f_0.evaluate ip.2.index
              + (ip.2.shares_received.map (fun kv => kv.2.1)).sum,
            ip.2.f_1.evaluate ip.2.index
              + (ip.2.shares_received.map (fun kv => kv.2.2)).sum⟩)) := by
  refine ⟨?_, ?_, ?_⟩
  · intro h
    unfold DKGProtocol.receive_shares
    rw [h]
  · intro part h
    constructor
    · unfold DKGProtocol.receive_shares
      rw [h]
    · exact lookup_insertR from_idx p part.shares_received
  · intro mpk ss h
    have hss := (finalize_ok_parts st mpk ss h).1
    rw [hss]
    unfold secretSharesOf
    refine List.map_congr_left fun ip _ => ?_
    rw [aggS_eq, aggZ_eq]

/-- Closed instance of C10: receiving from the out-of-range sender 0
replaces a previously stored pair, and the missing-participant case
fails. -/
theorem C10_witness :
    (DKGProtocol.receive_shares ⟨[(1, ⟨1, ⟨[1]⟩, ⟨[1]⟩, [], [], [(0, (5, 6))]⟩)], 2, 1⟩
        1 0 (7, 8)
      = .ok ⟨[(1, ⟨1, ⟨[1]⟩, ⟨[1]⟩, [], [], [(0, (7, 8))]⟩)], 2, 1⟩)
    ∧ (DKGProtocol.receive_shares ⟨[(1, ⟨1, ⟨[1]⟩, ⟨[1]⟩, [], [], []⟩)], 2, 1⟩
        3 2 (7, 8)
      = .error (.DKGProtocolFailed "Participant not found")) := by
  constructor
  · have h := ((C10_receive_shares
      ⟨[(1, ⟨1, ⟨[1]⟩, ⟨[1]⟩, [], [], [(0, (5, 6))]⟩)], 2, 1⟩ 1 0 (7, 8)).2.1
      ⟨1, ⟨[1]⟩, ⟨[1]⟩, [], [], [(0, (5, 6))]⟩ (by decide)).1
    rw [h]
    decide
  · exact (C10_receive_shares ⟨[(1, ⟨1, ⟨[1]⟩, ⟨[1]⟩, [], [], []⟩)], 2, 1⟩
      3 2 (7, 8)).1 (by decide)

/-! ### Claim C3 -/

/-- The Lagrange coefficient at zero as a total function (zero on failure);
finalize only uses it where the call provably succeeds. -/
def lag0 (idx : List ℕ) (i : ℕ) : Scalar :=
  ((lagrange_coefficient idx i 0).toOption).getD 0

/-- The aggregated s value stored under an index of the secret-shares map. -/
def sIof (ss : List (ℕ × MasterSecretShare)) (i : ℕ) : Scalar :=
  ((lookup i ss).getD ⟨0, 0, 0⟩).s_i

/-- The aggregated z value stored under an index of the secret-shares map. -/
def zIof (ss : List (ℕ × MasterSecretShare)) (i : ℕ) : Scalar :=
  ((lookup i ss).getD ⟨0, 0, 0⟩).z_i

lemma finalizeAccum_ok_sum (ss : List (ℕ × MasterSecretShare)) (idx : List ℕ) :
    ∀ (rest : List ℕ) (accY accG : Option Point)
      (out : Option Point × Option Point),
      finalizeAccum ss idx rest (accY, accG) = .ok out →
      out.1.getD 0 = accY.getD 0
          + (rest.map (fun i => lag0 idx i * sIof ss i)).sum
      ∧ out.2.getD 0 = accG.getD 0
          + (rest.map (fun i => lag0 idx i * zIof ss i)).sum := by
  intro rest
  induction rest with
  | nil =>
    intro accY accG out h
    simp only [finalizeAccum] at h
    rw [← Except.ok.inj h]
    simp
  | cons i rest ih =>
    intro accY accG out h
    rcases hl : lookup i ss with _ | share
    · simp only [finalizeAccum, hl] at h
      exact Except.noConfusion h
    rcases hc : lagrange_coefficient idx i 0 with e2 | coeff
    · simp only [finalizeAccum, hl, hc, rres_bind_error] at h
      exact Except.noConfusion h
    have hlag : lag0 idx i = coeff := by simp [lag0, hc]
    have hsI : sIof ss i = share.s_i := by simp [sIof, hl]
    have hzI : zIof ss i = share.z_i := by simp [zIof, hl]
    by_cases hs : scalar_mul share.s_i coeff = 0
    · simp only [finalizeAccum, hl, hc, rres_bind_ok, secretKeyOfScalar,
        if_pos hs, rres_bind_error] at h
      exact Except.noConfusion h
    by_cases hz : scalar_mul share.z_i coeff = 0
    · simp only [finalizeAccum, hl, hc, rres_bind_ok, secretKeyOfScalar,
        if_neg hs, if_pos hz, rres_bind_error] at h
      exact Except.noConfusion h
    simp only [finalizeAccum, hl, hc, rres_bind_ok, secretKeyOfScalar,
      if_neg hs, if_neg hz] at h
    rcases accY with _ | y0
    · rcases accG with _ | g0
      · simp only [rres_bind_ok] at h
        have hres := ih _ _ _ h
        simp only [Option.getD_some, Option.getD_none] at hres ⊢
        rw [hres.1, hres.2]
        simp only [List.map_cons, List.sum_cons, hlag, hsI, hzI, pubOfSecret,
          scalar_mul]
        constructor <;> ring
      · by_cases hcg : g0 + pubOfSecret (scalar_mul share.z_i coeff) = 0
        · simp only [combine, if_pos hcg, rres_bind_error, rres_bind_ok] at h
          exact Except.noConfusion h
        · simp only [combine, if_neg hcg, rres_bind_ok] at h
          have hres := ih _ _ _ h
          simp only [Option.getD_some, Option.getD_none] at hres ⊢
          rw [hres.1, hres.2]
          simp only [List.map_cons, List.sum_cons, hlag, hsI, hzI, pubOfSecret,
            scalar_mul]
          constructor <;> ring
    · by_cases hcy : y0 + pubOfSecret (scalar_mul share.s_i coeff) = 0
      · simp only [combine, if_pos hcy, rres_bind_error] at h
        exact Except.noConfusion h
      rcases accG with _ | g0
      · simp only [combine, if_neg hcy, rres_bind_ok] at h
        have hres := ih _ _ _ h
        simp only [Option.getD_some, Option.getD_none] at hres ⊢
        rw [hres.1, hres.2]
        simp only [List.map_cons, List.sum_cons, hlag, hsI, hzI, pubOfSecret,
          scalar_mul]
        constructor <;> ring
      · by_cases hcg : g0 + pubOfSecret (scalar_mul share.z_i coeff) = 0
        · simp only [combine, if_neg hcy, if_pos hcg, rres_bind_error,
            rres_bind_ok] at h
          exact Except.noConfusion h
        · simp only [combine, if_neg hcy, if_neg hcg, rres_bind_ok] at h
          have hres := ih _ _ _ h
          simp only [Option.getD_some, Option.getD_none] at hres ⊢
          rw [hres.1, hres.2]
          simp only [List.map_cons, List.sum_cons, hlag, hsI, hzI, pubOfSecret,
            scalar_mul]
          constructor <;> ring

lemma finalizeAccum_missing (ss : List (ℕ × MasterSecretShare)) (idx : List ℕ) :
    ∀ (rest : List ℕ) (acc : Option Point × Option Point),
      (∃ i, i ∈ rest ∧ lookup i ss = none) →
      ∀ out, finalizeAccum ss idx rest acc ≠ .ok out := by
  intro rest
  induction rest with
  | nil =>
    rintro acc ⟨i, hmem, _⟩
    simp at hmem
  | cons j rest ih =>
    rintro acc ⟨i, hmem, hnone⟩ out h
    rcases hl : lookup j ss with _ | share
    · simp only [finalizeAccum, hl] at h
      exact Except.noConfusion h
    rcases List.mem_cons.mp hmem with rfl | htail
    · rw [hl] at hnone
      exact Option.noConfusion hnone
    rcases hc : lagrange_coefficient idx j 0 with e2 | coeff
    · simp only [finalizeAccum, hl, hc, rres_bind_error] at h
      exact Except.noConfusion h
    by_cases hs : scalar_mul share.s_i coeff = 0
    · simp only [finalizeAccum, hl, hc, rres_bind_ok, secretKeyOfScalar,
        if_pos hs, rres_bind_error] at h
      exact Except.noConfusion h
    by_cases hz : scalar_mul share.z_i coeff = 0
    · simp only [finalizeAccum, hl, hc, rres_bind_ok, secretKeyOfScalar,
        if_neg hs, if_pos hz, rres_bind_error] at h
      exact Except.noConfusion h
    simp only [finalizeAccum, hl, hc, rres_bind_ok, secretKeyOfScalar,
      if_neg hs, if_neg hz] at h
    rcases acc with ⟨accY, accG⟩
    rcases accY with _ | y0
    · rcases accG with _ | g0
      · simp only [rres_bind_ok] at h
        exact ih _ ⟨i, htail, hnone⟩ _ h
      · by_cases hcg : g0 + pubOfSecret (scalar_mul share.z_i coeff) = 0
        · simp only [combine, if_pos hcg, rres_bind_error, rres_bind_ok] at h
          exact Except.noConfusion h
        · simp only [combine, if_neg hcg, rres_bind_ok] at h
          exact ih _ ⟨i, htail, hnone⟩ _ h
    · by_cases hcy : y0 + pubOfSecret (scalar_mul share.s_i coeff) = 0
      · simp only [combine, if_pos hcy, rres_bind_error] at h
        exact Except.noConfusion h
      rcases accG with _ | g0
      · simp only [combine, if_neg hcy, rres_bind_ok] at h
        exact ih _ ⟨i, htail, hnone⟩ _ h
      · by_cases hcg : g0 + pubOfSecret (scalar_mul share.z_i coeff) = 0
        · simp only [combine, if_neg hcy, if_pos hcg, rres_bind_error,
            rres_bind_ok] at h
          exact Except.noConfusion h
        · simp only [combine, if_neg hcy, if_neg hcg, rres_bind_ok] at h
          exact ih _ ⟨i, htail, hnone⟩ _ h

lemma lookup_secretSharesOf (st : DKGProtocol) (k : ℕ) :
    lookup k (secretSharesOf st)
      = (lookup k st.participants).map (fun p => ⟨k, aggS p, aggZ p⟩) := by
  unfold secretSharesOf
  induction st.participants with
  | nil => simp [lookup]
  | cons ip rest ih =>
    by_cases h : ip.1 = k
    · simp only [List.map_cons, lookup, h, if_pos]
      subst h
      simp [lookup]
    · simp only [List.map_cons, lookup, h, if_neg, if_false, ite_false]
      simpa [lookup, h] using ih

/-- C3 counterexample: with t = 2 and the two completed participants 2 and
3 (a set of at least t completed participants), finalize does not succeed:
it interpolates over the fixed index set 1..t and fails with
DKGProtocolFailed("Missing share") because participant 1 is absent,
contradicting the claim that any set of at least t completed participants
makes finalize succeed over the lowest-indexed completed quorum. -/
theorem C3_counterexample :
    DKGProtocol.finalize
        ⟨[(2, ⟨2, ⟨[1, 1]⟩, ⟨[1, 1]⟩, [], [], []⟩),
          (3, ⟨3, ⟨[1, 1]⟩, ⟨[1, 1]⟩, [], [], []⟩)], 3, 2⟩
      = some (.error (.DKGProtocolFailed "Missing share")) := by
  decide

/-- C3 (amended): finalize reconstructs the master public key over the
FIXED quorum of indices 1..t, not over the lowest-indexed completed
participants: when any index i with 1 ≤ i ≤ t has not completed, finalize
cannot succeed (even if at least t other participants completed), and when
it does succeed, Y and Γ are exactly the Lagrange-weighted sums of the
aggregated shares of participants 1..t, so all callers with the same
participant map obtain the same master public key. -/
theorem C3_finalize_fixed_quorum (st : DKGProtocol) :
    (∀ i, 1 ≤ i → i ≤ st.t → lookup i st.participants = none →
      ∀ res, st.finalize ≠ some (.ok res))
    ∧ ∀ (mpk : MasterPublicKey) (ss : List (ℕ × MasterSecretShare)),
        st.finalize = some (.ok (mpk, ss)) →
        mpk.y = ((List.range' 1 st.t).map
            (fun i => lag0 (List.range' 1 st.t) i * sIof (secretSharesOf st) i)).sum
        ∧ mpk.gamma = ((List.range' 1 st.t).map
            (fun i => lag0 (List.range' 1 st.t) i * zIof (secretSharesOf st) i)).sum
        ∧ ss = secretSharesOf st := by
  constructor
  · intro i h1 ht hnone res h
    have hmiss : lookup i (secretSharesOf st) = none := by
      rw [lookup_secretSharesOf, hnone]
      rfl
    have hmem : i ∈ List.range' 1 st.t := by
      rw [List.mem_range'_1]
      omega
    unfold DKGProtocol.finalize at h
    by_cases hlen : st.participants.length < st.t
    · rw [if_pos hlen] at h
      simp at h
    · rw [if_neg hlen] at h
      rcases hacc : finalizeAccum (secretSharesOf st) (List.range' 1 st.t)
          (List.range' 1 st.t) (none, none) with e | pair
      · rw [hacc] at h
        simp at h
      · exact finalizeAccum_missing (secretSharesOf st) (List.range' 1 st.t)
          (List.range' 1 st.t) (none, none) ⟨i, hmem, hmiss⟩ pair hacc
  · intro mpk ss h
    obtain ⟨hss, _, resY, resG, hacc, hy, hg, _⟩ := finalize_ok_parts st mpk ss h
    have hsum := finalizeAccum_ok_sum (secretSharesOf st) (List.range' 1 st.t)
      (List.range' 1 st.t) none none (some resY, some resG) hacc
    simp only [Option.getD_some, Option.getD_none] at hsum
    refine ⟨?_, ?_, hss⟩
    · rw [hy, hsum.1, zero_add]
    · rw [hg, hsum.2, zero_add]

/-- Closed instance of C3: the missing-participant direction applied to the
counterexample state, and the fixed-quorum sum evaluated on a completed
one-participant run. -/
theorem C3_witness :
    (DKGProtocol.finalize
        ⟨[(2, ⟨2, ⟨[1, 1]⟩, ⟨[1, 1]⟩, [], [], []⟩),
          (3, ⟨3, ⟨[1, 1]⟩, ⟨[1, 1]⟩, [], [], []⟩)], 3, 2⟩
      ≠ some (.ok (⟨1, 1, ⟨3, 2⟩⟩, [])))
    ∧ (1 : Point)
        = ((List.range' 1 1).map
            (fun i => lag0 (List.range' 1 1) i
              * sIof (secretSharesOf ⟨[(1, ⟨1, ⟨[1]⟩, ⟨[1]⟩, [], [], []⟩)], 1, 1⟩) i)).sum := by
  constructor
  · exact (C3_finalize_fixed_quorum
      ⟨[(2, ⟨2, ⟨[1, 1]⟩, ⟨[1, 1]⟩, [], [], []⟩),
        (3, ⟨3, ⟨[1, 1]⟩, ⟨[1, 1]⟩, [], [], []⟩)], 3, 2⟩).1
      1 (by decide) (by decide) (by decide) _
  · have h := ((C3_finalize_fixed_quorum
      ⟨[(1, ⟨1, ⟨[1]⟩, ⟨[1]⟩, [], [], []⟩)], 1, 1⟩).2
      ⟨1, 1, ⟨1, 1⟩⟩ [(1, ⟨1, 1, 1⟩)] (by decide)).1
    simpa using h

/-! ### Claim C6 -/

lemma lagrange_coefficient_ok_iff (idx : List ℕ) (i j : ℕ) :
    (∃ c, lagrange_coefficient idx i j = .ok c)
      ↔ Nat.gcd (lagrangeNumDen idx i j).2 q = 1 := by
  rw [← mod_inverse_ok_iff]
  constructor
  · rintro ⟨c, hc⟩
    rcases hmi : mod_inverse (lagrangeNumDen idx i j).2 q with e | r
    · simp only [lagrange_coefficient, hmi] at hc
      exact Except.noConfusion hc
    · exact ⟨r, rfl⟩
  · rintro ⟨r, hr⟩
    exact ⟨(((lagrangeNumDen idx i j).1 * r : ℕ) : Scalar),
      by simp only [lagrange_coefficient, hr]⟩

/-- C6 (confirmed): for a set of distinct positive indices containing i
(each below q, as every usize index is), lagrange_coefficient succeeds, it
succeeds exactly when the accumulated denominator has gcd 1 with q, and the
returned value is the product over the other indices of (j - k) times the
field inverse of the product of (i - k), every difference being the
representative of the signed difference reduced into the range 0 to q-1. -/
theorem C6_lagrange_coefficient (idx : List ℕ) (i j : ℕ)
    (hnd : idx.Nodup) (hpos : ∀ k ∈ idx, 0 < k) (hmem : i ∈ idx)
    (hlt : ∀ k ∈ idx, k < q) :
    (∃ c, lagrange_coefficient idx i j = .ok c)
    ∧ ((∃ c, lagrange_coefficient idx i j = .ok c)
        ↔ Nat.gcd (lagrangeNumDen idx i j).2 q = 1)
    ∧ ∀ c, lagrange_coefficient idx i j = .ok c →
        c = ((idx.filter (fun k => k ≠ i)).map
              (fun k : ℕ => (j : ZMod q) - (k : ZMod q))).prod
            * (((idx.filter (fun k => k ≠ i)).map
              (fun k : ℕ => (i : ZMod q) - (k : ZMod q))).prod)⁻¹ := by
  have hdist : ∀ k ∈ idx, k ≠ i → ((i : ZMod q)) ≠ ((k : ZMod q)) := by
    intro k hk hne heq
    have hi2 : i < q := hlt i hmem
    have hk2 : k < q := hlt k hk
    have hval := congrArg ZMod.val heq
    rw [ZMod.val_cast_of_lt hi2, ZMod.val_cast_of_lt hk2] at hval
    exact hne hval.symm
  have hD : ((idx.filter (fun k => k ≠ i)).map
      (fun k : ℕ => (i : ZMod q) - (k : ZMod q))).prod ≠ 0 := by
    apply List.prod_ne_zero
    intro h0mem
    rcases List.mem_map.mp h0mem with ⟨k, hk, hk0⟩
    rcases List.mem_filter.mp hk with ⟨hkidx, hkne⟩
    exact hdist k hkidx (by simpa using hkne) (sub_eq_zero.mp hk0)
  refine ⟨lagrange_coefficient_ok idx i j hdist,
    lagrange_coefficient_ok_iff idx i j, ?_⟩
  intro c hc
  have hkey := lagrange_coefficient_mul_den idx i j c hc
  apply mul_right_cancel₀ hD
  rw [hkey, mul_assoc, inv_mul_cancel₀ hD, mul_one]

/-- Closed instance of C6 at the index set {1,2,3} with i = 2, j = 0: the
coefficient is -3 and matches the product formula. -/
theorem C6_witness :
    lagrange_coefficient [1, 2, 3] 2 0 = .ok (-3)
    ∧ (-3 : Scalar) = (([1, 2, 3].filter (fun k => k ≠ 2)).map
          (fun k : ℕ => ((0 : ℕ) : ZMod q) - (k : ZMod q))).prod
        * ((([1, 2, 3].filter (fun k => k ≠ 2)).map
          (fun k : ℕ => ((2 : ℕ) : ZMod q) - (k : ZMod q))).prod)⁻¹ := by
  have hform := (C6_lagrange_coefficient [1, 2, 3] 2 0 (by decide) (by decide)
    (by decide) (by decide)).2.2 (-3) (by decide)
  exact ⟨by decide, hform⟩

/-! ### Claim C8 -/

lemma insertAsc_of_le (x : ℕ) :
    ∀ l : List ℕ, (∀ y ∈ l, x ≤ y) → insertAsc x l = x :: l := by
  intro l hle
  cases l with
  | nil => rfl
  | cons y rest =>
    simp only [insertAsc, if_pos (hle y (List.mem_cons_self y rest))]

lemma sortNat_of_sorted :
    ∀ l : List ℕ, List.Pairwise (fun a b => a ≤ b) l → sortNat l = l := by
  intro l
  induction l with
  | nil => intro _; rfl
  | cons x rest ih =>
    intro h
    rcases List.pairwise_cons.mp h with ⟨hx, htail⟩
    rw [sortNat, ih htail, insertAsc_of_le x rest hx]

/-- C8 counterexample: a share map whose iteration order is [3, 1, 2] with
psi values 5, 5, 7 and threshold 1.  The code compares the reconstructions
from iteration-order positions 0 and 1 (both 5) and accepts; the claim,
which prescribes positions 0 and 1 of the SORTED index list (values 5 and
7), would reject. -/
theorem C8_counterexample :
    verify_threshold_consistency
        [(3, ⟨3, 5, 5⟩), (1, ⟨1, 5, 5⟩), (2, ⟨2, 7, 7⟩)] 1 = .ok true
    ∧ verify_threshold_consistency_sorted
        [(3, ⟨3, 5, 5⟩), (1, ⟨1, 5, 5⟩), (2, ⟨2, 7, 7⟩)] 1 = .ok false := by
  decide

/-- C8 (amended): with exactly k entries the check returns true; the two
k-subsets compared when the map is larger are taken at positions 0 to k-1
and 1 to k of the map's ITERATION-ORDER index list, which is unspecified
and in general unsorted; the claim's sorted description is accurate
exactly when the iteration order happens to be sorted, in which case the
code agrees with the sorted prescription. -/
theorem C8_verify_threshold_consistency (shares : List (ℕ × PrivateKeyShare))
    (k : ℕ) :
    (shares.length = k → verify_threshold_consistency shares k = .ok true)
    ∧ (List.Pairwise (fun a b => a ≤ b) (shares.map Prod.fst) →
        verify_threshold_consistency shares k
          = verify_threshold_consistency_sorted shares k) := by
  constructor
  · intro hlen
    unfold verify_threshold_consistency
    rw [if_neg (by omega), if_pos (by simp [hlen])]
    simp [hlen]
  · intro hsorted
    unfold verify_threshold_consistency verify_threshold_consistency_sorted
    rw [sortNat_of_sorted _ hsorted]

/-- Closed instance of C8: the exactly-k case accepts, and on a share map
with sorted iteration order the code matches the sorted prescription. -/
theorem C8_witness :
    verify_threshold_consistency [(1, ⟨1, 5, 5⟩)] 1 = .ok true
    ∧ verify_threshold_consistency [(1, ⟨1, 5, 5⟩), (2, ⟨2, 7, 7⟩)] 1
        = verify_threshold_consistency_sorted
            [(1, ⟨1, 5, 5⟩), (2, ⟨2, 7, 7⟩)] 1 :=
  ⟨(C8_verify_threshold_consistency [(1, ⟨1, 5, 5⟩)] 1).1 (by decide),
   (C8_verify_threshold_consistency [(1, ⟨1, 5, 5⟩), (2, ⟨2, 7, 7⟩)] 1).2
     (by decide)⟩

/-! ### Claim C7 -/

/-- C7 counterexample: completeness as claimed fails for some secret.  With
the challenge constantly 1, the secret q - 1 and the nonce k = 1 produce
the proof (R = P, mu = 0); verifying that proof against VK = (q-1)P under
the SAME context panics (none) inside SecretKey::from_slice(mu) instead of
returning true. -/
theorem C7_counterexample :
    schnorr_prove prims0 (-1) [] 1 = some ⟨1, 0⟩
    ∧ schnorr_verify prims0 ⟨1, 0⟩ (pubOfSecret (-1)) [] = none := by
  decide

/-- C7 (amended): with a nonzero nonce, prove returns (R, mu) =
(k*P, k + psi*c) with c the challenge hash of the context and serialized R.
Completeness holds provided psi, c and mu are nonzero (each zero case makes
verify abort on an unwrap instead of returning a boolean).  A proof
accepted under one context is never accepted under a context whose
challenge differs (context binding), and whenever its three unwraps are
safe, verify accepts exactly when mu*P = R + c*VK. -/
theorem C7_schnorr (pr : Primitives) (psi k : Scalar) (ctx ctx2 : List ℕ)
    (hk : k ≠ 0) (hpsi : psi ≠ 0) :
    schnorr_prove pr psi ctx k
        = some ⟨k, k + psi * pr.chal ctx (pr.ser k)⟩
    ∧ (pr.chal ctx (pr.ser k) ≠ 0 →
        k + psi * pr.chal ctx (pr.ser k) ≠ 0 →
        schnorr_verify pr ⟨k, k + psi * pr.chal ctx (pr.ser k)⟩
            (pubOfSecret psi) ctx = some true)
    ∧ (∀ (proof : Proof) (vk : Point), vk ≠ 0 →
        proof.mu = proof.r + pr.chal ctx (pr.ser proof.r) * vk →
        pr.chal ctx2 (pr.ser proof.r) ≠ pr.chal ctx (pr.ser proof.r) →
        schnorr_verify pr proof vk ctx2 ≠ some true)
    ∧ (∀ (proof : Proof) (vk : Point), vk ≠ 0 → proof.mu ≠ 0 →
        pr.chal ctx2 (pr.ser proof.r) ≠ 0 →
        proof.r + pr.chal ctx2 (pr.ser proof.r) * vk ≠ 0 →
        (schnorr_verify pr proof vk ctx2 = some true
          ↔ proof.mu = proof.r + pr.chal ctx2 (pr.ser proof.r) * vk)) := by
  refine ⟨?_, ?_, ?_, ?_⟩
  · simp [schnorr_prove, hk, scalar_add, scalar_mul, pubOfSecret]
  · intro hc hmu
    have hpc : psi * pr.chal ctx (pr.ser k) ≠ 0 :=
      mul_ne_zero hpsi hc
    have hsk2 : secretKeyOfScalar (k + psi * pr.chal ctx (pr.ser k))
        = .ok (k + psi * pr.chal ctx (pr.ser k)) := by
      unfold secretKeyOfScalar
      rw [if_neg hmu]
    have hmt2 : mul_tweak psi (pr.chal ctx (pr.ser k))
        = .ok (psi * pr.chal ctx (pr.ser k)) := by
      unfold mul_tweak
      rw [if_neg (by push_neg; exact ⟨hc, hpc⟩)]
    have hcm2 : combine k (psi * pr.chal ctx (pr.ser k))
        = .ok (k + psi * pr.chal ctx (pr.ser k)) := by
      unfold combine
      rw [if_neg hmu]
    simp [schnorr_verify, hsk2, hmt2, hcm2, pubOfSecret]
  · intro proof vk hvk hacc hne h
    unfold schnorr_verify at h
    by_cases h1 : proof.mu = 0
    · rw [show secretKeyOfScalar proof.mu = .error .Secp256k1Error from by
        unfold secretKeyOfScalar
        rw [if_pos h1]] at h
      simp at h
    rw [show secretKeyOfScalar proof.mu = .ok proof.mu from by
      unfold secretKeyOfScalar
      rw [if_neg h1]] at h
    by_cases h2 : pr.chal ctx2 (pr.ser proof.r) = 0
        ∨ vk * pr.chal ctx2 (pr.ser proof.r) = 0
    · rw [show mul_tweak vk (pr.chal ctx2 (pr.ser proof.r))
          = .error .Secp256k1Error from by
        unfold mul_tweak
        rw [if_pos h2]] at h
      simp at h
    rw [show mul_tweak vk (pr.chal ctx2 (pr.ser proof.r))
        = .ok (vk * pr.chal ctx2 (pr.ser proof.r)) from by
      unfold mul_tweak
      rw [if_neg h2]] at h
    by_cases h3 : proof.r + vk * pr.chal ctx2 (pr.ser proof.r) = 0
    · simp only [show combine proof.r (vk * pr.chal ctx2 (pr.ser proof.r))
          = .error .Secp256k1Error from by
        unfold combine
        rw [if_pos h3]] at h
      simp at h
    simp only [show combine proof.r (vk * pr.chal ctx2 (pr.ser proof.r))
        = .ok (proof.r + vk * pr.chal ctx2 (pr.ser proof.r)) from by
      unfold combine
      rw [if_neg h3]] at h
    simp only [Option.some.injEq, decide_eq_true_eq, pubOfSecret] at h
    rw [hacc] at h
    have hdiff : (pr.chal ctx (pr.ser proof.r)
        - pr.chal ctx2 (pr.ser proof.r)) * vk = 0 := by
      linear_combination h
    rcases mul_eq_zero.mp hdiff with hz | hz
    · refine hne ?_
      linear_combination -hz
    · exact hvk hz
  · intro proof vk hvk0 hmu hc hsum
    have hvkc : vk * pr.chal ctx2 (pr.ser proof.r) ≠ 0 := mul_ne_zero hvk0 hc
    have hsk2 : secretKeyOfScalar proof.mu = .ok proof.mu := by
      unfold secretKeyOfScalar
      rw [if_neg hmu]
    have hmt2 : mul_tweak vk (pr.chal ctx2 (pr.ser proof.r))
        = .ok (vk * pr.chal ctx2 (pr.ser proof.r)) := by
      unfold mul_tweak
      rw [if_neg (by push_neg; exact ⟨hc, hvkc⟩)]
    have hcm2 : combine proof.r (vk * pr.chal ctx2 (pr.ser proof.r))
        = .ok (proof.r + vk * pr.chal ctx2 (pr.ser proof.r)) := by
      unfold combine
      rw [if_neg (by rwa [mul_comm] at hsum)]
    unfold schnorr_verify
    rw [hsk2, hmt2]
    simp only [hcm2]
    simp only [Option.some.injEq, decide_eq_true_eq, pubOfSecret]
    rw [mul_comm vk]

/-- Closed instance of C7: under a context-sensitive challenge, the honest
proof for psi = 1, k = 1 verifies under its own context and is rejected
under the other context. -/
theorem C7_witness :
    schnorr_verify primsCtx ⟨1, 2⟩ (pubOfSecret 1) [0] = some true
    ∧ schnorr_verify primsCtx ⟨1, 2⟩ 1 [1] ≠ some true := by
  constructor
  · have h := (C7_schnorr primsCtx 1 1 [0] [1] (by decide) (by decide)).2.1
      (by decide) (by decide)
    simpa using h
  · exact (C7_schnorr primsCtx 1 1 [0] [1] (by decide) (by decide)).2.2.1
      ⟨1, 2⟩ 1 (by decide) (by decide) (by decide)


/-! ### Claim C1 -/

lemma secretKeyOfScalar_ok (s v : Scalar) (h : secretKeyOfScalar s = .ok v) :
    v = s ∧ s ≠ 0 := by
  unfold secretKeyOfScalar at h
  by_cases hc : s = 0
  · rw [if_pos hc] at h
    exact Except.noConfusion h
  · rw [if_neg hc] at h
    exact ⟨(Except.ok.inj h).symm, hc⟩

lemma mul_tweak_ok (p s v : Point) (h : mul_tweak p s = .ok v) :
    v = p * s ∧ s ≠ 0 ∧ p * s ≠ 0 := by
  unfold mul_tweak at h
  by_cases hc : s = 0 ∨ p * s = 0
  · rw [if_pos hc] at h
    exact Except.noConfusion h
  · rw [if_neg hc] at h
    push_neg at hc
    exact ⟨(Except.ok.inj h).symm, hc.1, hc.2⟩

lemma combine_ok (p₁ p₂ v : Point) (h : combine p₁ p₂ = .ok v) :
    v = p₁ + p₂ ∧ p₁ + p₂ ≠ 0 := by
  unfold combine at h
  by_cases hc : p₁ + p₂ = 0
  · rw [if_pos hc] at h
    exact Except.noConfusion h
  · rw [if_neg hc] at h
    exact ⟨(Except.ok.inj h).symm, hc⟩

lemma sum_map_add_scalar {α : Type} (f g : α → Scalar) :
    ∀ l : List α,
      (l.map (fun x => f x + g x)).sum = (l.map f).sum + (l.map g).sum := by
  intro l
  induction l with
  | nil => simp
  | cons x rest ih =>
    simp only [List.map_cons, List.sum_cons, ih]
    ring

lemma sum_map_mul_left_scalar {α : Type} (c : Scalar) (f : α → Scalar) :
    ∀ l : List α, (l.map (fun x => c * f x)).sum = c * (l.map f).sum := by
  intro l
  induction l with
  | nil => simp
  | cons x rest ih =>
    simp only [List.map_cons, List.sum_cons, ih]
    ring

lemma take_range' :
    ∀ (t n s : ℕ), t ≤ n → (List.range' s n).take t = List.range' s t := by
  intro t
  induction t with
  | zero =>
    intro n s _
    simp
  | succ t2 ih =>
    intro n s h
    cases n with
    | zero => omega
    | succ m =>
      rw [List.range'_succ, List.range'_succ, List.take_succ_cons,
        ih m (s + 1) (by omega)]

/-- Mapping a function over the first t entries of an association list whose
keys are exactly s, s+1, ... in order agrees with looking each of the first t
keys up. -/
lemma map_take_eq_range_lookup {α β : Type} (d : α) (G : ℕ → α → β) :
    ∀ (l : List (ℕ × α)) (s n t : ℕ),
      l.map Prod.fst = List.range' s n → t ≤ n →
      (l.take t).map (fun kv => G kv.1 kv.2)
        = (List.range' s t).map (fun i => G i ((lookup i l).getD d)) := by
  intro l
  induction l with
  | nil =>
    intro s n t hk ht
    cases n with
    | zero =>
      have ht0 : t = 0 := Nat.le_zero.mp ht
      subst ht0
      simp
    | succ m =>
      rw [List.range'_succ] at hk
      simp at hk
  | cons kv rest ih =>
    intro s n t hk ht
    obtain ⟨k, v⟩ := kv
    cases n with
    | zero =>
      simp [List.range'] at hk
    | succ m =>
      rw [List.range'_succ] at hk
      simp only [List.map_cons] at hk
      obtain ⟨hk1, hk2⟩ := List.cons.inj hk
      subst hk1
      cases t with
      | zero => simp
      | succ t2 =>
        have ht2 : t2 ≤ m := by omega
        rw [List.take_succ_cons, List.map_cons, List.range'_succ, List.map_cons]
        congr 1
        · simp [lookup]
        · rw [ih (k + 1) m t2 hk2 ht2]
          refine List.map_congr_left ?_
          intro i hi
          have hik : ¬ k = i := by
            have := List.mem_range'_1.mp hi
            omega
          simp [lookup, hik]

lemma lagCombineScalars_ok_sum (indices : List ℕ) :
    ∀ (l : List (ℕ × Scalar)) (acc res : Scalar),
      lagCombineScalars indices l acc = .ok res →
      res = acc + (l.map (fun iv => iv.2 * lag0 indices iv.1)).sum := by
  intro l
  induction l with
  | nil =>
    intro acc res h
    simp only [lagCombineScalars] at h
    rw [← Except.ok.inj h]
    simp
  | cons iv rest ih =>
    intro acc res h
    rcases hc : lagrange_coefficient indices iv.1 0 with e | coeff
    · simp only [lagCombineScalars, hc] at h
      exact Except.noConfusion h
    have hlag : lag0 indices iv.1 = coeff := by simp [lag0, hc]
    simp only [lagCombineScalars, hc] at h
    have hres := ih _ _ h
    rw [hres]
    simp only [scalar_add, scalar_mul, List.map_cons, List.sum_cons, hlag]
    ring

lemma keygenSharesAux_lookup (poly : Poly) :
    ∀ (l : List ℕ) (pks : List (ℕ × PrivateKeyShare)),
      keygenSharesAux poly l = .ok pks →
      ∀ j ∈ l, lookup j pks
        = some ⟨j, poly.evaluate j, pubOfSecret (poly.evaluate j)⟩ := by
  intro l
  induction l with
  | nil =>
    intro pks _ j hj
    exact absurd hj (List.not_mem_nil j)
  | cons i rest ih =>
    intro pks h j hj
    by_cases h0 : poly.evaluate i = 0
    · simp only [keygenSharesAux, secretKeyOfScalar, if_pos h0,
        rres_bind_error] at h
      exact Except.noConfusion h
    simp only [keygenSharesAux, secretKeyOfScalar, if_neg h0, rres_bind_ok] at h
    rcases hrest : keygenSharesAux poly rest with e | others
    · simp only [hrest, rres_bind_error] at h
      exact Except.noConfusion h
    simp only [hrest, rres_bind_ok, rres_pure_eq] at h
    rw [← Except.ok.inj h]
    rcases List.mem_cons.mp hj with rfl | hjr
    · simp [lookup]
    · by_cases hij : i = j
      · subst hij
        simp [lookup]
      · simp only [lookup, hij, if_false, ite_false]
        exact ih others hrest j hjr

lemma decryptAccum_ok_sum (indices : List ℕ) :
    ∀ (shs : List DecryptionShare) (acc res : Option Point),
      decryptAccum indices shs acc = .ok res →
      res.getD 0 = acc.getD 0
        + (shs.map (fun sh => sh.lambda_i * lag0 indices sh.index)).sum := by
  intro shs
  induction shs with
  | nil =>
    intro acc res h
    simp only [decryptAccum] at h
    rw [← Except.ok.inj h]
    simp
  | cons sh rest ih =>
    intro acc res h
    rcases hc : lagrange_coefficient indices sh.index 0 with e | coeff
    · simp only [decryptAccum, hc, rres_bind_error] at h
      exact Except.noConfusion h
    have hlag : lag0 indices sh.index = coeff := by simp [lag0, hc]
    by_cases hw : coeff = 0 ∨ sh.lambda_i * coeff = 0
    · simp only [decryptAccum, hc, rres_bind_ok, mul_tweak, if_pos hw,
        rres_bind_error] at h
      exact Except.noConfusion h
    simp only [decryptAccum, hc, rres_bind_ok, mul_tweak, if_neg hw] at h
    rcases acc with _ | a
    · simp only [rres_bind_ok] at h
      have hres := ih _ _ h
      simp only [Option.getD_some, Option.getD_none] at hres ⊢
      rw [hres]
      simp only [List.map_cons, List.sum_cons, hlag]
      ring
    · by_cases hca : a + sh.lambda_i * coeff = 0
      · simp only [combine, if_pos hca, rres_bind_error, rres_bind_ok] at h
        exact Except.noConfusion h
      · simp only [combine, if_neg hca, rres_bind_ok] at h
        have hres := ih _ _ h
        simp only [Option.getD_some, Option.getD_none] at hres ⊢
        rw [hres]
        simp only [List.map_cons, List.sum_cons, hlag]
        ring

lemma decryptAccum_ok_shape (indices : List ℕ) :
    ∀ (shs : List DecryptionShare) (acc res : Option Point),
      decryptAccum indices shs acc = .ok res →
      (∃ p, res = some p) ∨ (res = acc ∧ shs = []) := by
  intro shs
  induction shs with
  | nil =>
    intro acc res h
    simp only [decryptAccum] at h
    exact Or.inr ⟨(Except.ok.inj h).symm, rfl⟩
  | cons sh rest ih =>
    intro acc res h
    rcases hc : lagrange_coefficient indices sh.index 0 with e | coeff
    · simp only [decryptAccum, hc, rres_bind_error] at h
      exact Except.noConfusion h
    by_cases hw : coeff = 0 ∨ sh.lambda_i * coeff = 0
    · simp only [decryptAccum, hc, rres_bind_ok, mul_tweak, if_pos hw,
        rres_bind_error] at h
      exact Except.noConfusion h
    simp only [decryptAccum, hc, rres_bind_ok, mul_tweak, if_neg hw] at h
    rcases acc with _ | a
    · simp only [rres_bind_ok] at h
      rcases ih _ _ h with hp | ⟨hres, _⟩
      · exact Or.inl hp
      · exact Or.inl ⟨_, hres⟩
    · by_cases hca : a + sh.lambda_i * coeff = 0
      · simp only [combine, if_pos hca, rres_bind_error, rres_bind_ok] at h
        exact Except.noConfusion h
      · simp only [combine, if_neg hca, rres_bind_ok] at h
        rcases ih _ _ h with hp | ⟨hres, _⟩
        · exact Or.inl hp
        · exact Or.inl ⟨_, hres⟩

lemma decryptAccum_error (indices : List ℕ) :
    ∀ (shs : List DecryptionShare) (acc : Option Point) (e : DIBTDError),
      (∀ sh ∈ shs, ∃ cv, lagrange_coefficient indices sh.index 0 = .ok cv) →
      decryptAccum indices shs acc = .error e → e = .Secp256k1Error := by
  intro shs
  induction shs with
  | nil =>
    intro acc e _ h
    simp only [decryptAccum] at h
    exact Except.noConfusion h
  | cons sh rest ih =>
    intro acc e hok h
    obtain ⟨cv, hcv⟩ := hok sh (List.mem_cons_self sh rest)
    simp only [decryptAccum, hcv, rres_bind_ok] at h
    have hok2 : ∀ s2 ∈ rest, ∃ c2, lagrange_coefficient indices s2.index 0 = .ok c2 :=
      fun s2 hs => hok s2 (List.mem_cons_of_mem sh hs)
    by_cases hw : cv = 0 ∨ sh.lambda_i * cv = 0
    · simp only [mul_tweak, if_pos hw, rres_bind_error] at h
      exact (Except.error.inj h).symm
    simp only [mul_tweak, if_neg hw] at h
    rcases acc with _ | a
    · simp only [rres_bind_ok] at h
      exact ih _ _ hok2 h
    · by_cases hca : a + sh.lambda_i * cv = 0
      · simp only [combine, if_pos hca, rres_bind_error, rres_bind_ok] at h
        exact (Except.error.inj h).symm
      · simp only [combine, if_neg hca, rres_bind_ok] at h
        exact ih _ _ hok2 h

lemma share_decrypt_ok (pr : Primitives) (c : Ciphertext)
    (ps : PrivateKeyShare) (out : DecryptionShare)
    (h : share_decrypt pr c ps = .ok out) :
    out = ⟨ps.index, c.d * ps.psi_i⟩ := by
  unfold share_decrypt at h
  by_cases h1 : c.delta = 0
  · simp only [secretKeyOfScalar, if_pos h1, rres_bind_error] at h
    exact Except.noConfusion h
  simp only [secretKeyOfScalar, if_neg h1, rres_bind_ok] at h
  by_cases h2 : pr.h3 c.d c.e c.f = 0 ∨ c.e * pr.h3 c.d c.e c.f = 0
  · simp only [mul_tweak, if_pos h2, rres_bind_error] at h
    exact Except.noConfusion h
  simp only [mul_tweak, if_neg h2, rres_bind_ok] at h
  by_cases h3 : c.d + c.e * pr.h3 c.d c.e c.f = 0
  · simp only [combine, if_pos h3, rres_bind_error] at h
    exact Except.noConfusion h
  simp only [combine, if_neg h3, rres_bind_ok, pubOfSecret] at h
  by_cases h4 : c.delta ≠ c.d + c.e * pr.h3 c.d c.e c.f
  · rw [if_pos h4] at h
    exact Except.noConfusion h
  rw [if_neg h4] at h
  by_cases h5 : ps.psi_i = 0 ∨ c.d * ps.psi_i = 0
  · simp only [mul_tweak, if_pos h5, rres_bind_error] at h
    exact Except.noConfusion h
  simp only [mul_tweak, if_neg h5, rres_bind_ok, rres_pure_eq] at h
  exact (Except.ok.inj h).symm

/-- Decomposition of a successful distributed_keygen call into the group
secret reconstruction and the member share loop. -/
lemma distributed_keygen_ok_parts (pr : Primitives)
    (ms : List (ℕ × MasterSecretShare)) (gid : GroupIdentity)
    (threshold : ℕ) (freshCoeffs : List Scalar)
    (pks : List (ℕ × PrivateKeyShare))
    (h : distributed_keygen pr ms gid threshold freshCoeffs = .ok pks) :
    ∃ gs : Scalar,
      lagCombineScalars
          (((ms.take threshold).map (fun is =>
            (is.1, scalar_add is.2.s_i (scalar_mul (pr.h1 gid.id) is.2.z_i)))).map
            Prod.fst)
          ((ms.take threshold).map (fun is =>
            (is.1, scalar_add is.2.s_i (scalar_mul (pr.h1 gid.id) is.2.z_i))))
          0 = .ok gs
      ∧ keygenSharesAux ⟨gs :: freshCoeffs⟩ (List.range' 1 gid.members)
          = .ok pks := by
  unfold distributed_keygen at h
  rcases hsec : lagCombineScalars
      (((ms.take threshold).map (fun is =>
        (is.1, scalar_add is.2.s_i (scalar_mul (pr.h1 gid.id) is.2.z_i)))).map
        Prod.fst)
      ((ms.take threshold).map (fun is =>
        (is.1, scalar_add is.2.s_i (scalar_mul (pr.h1 gid.id) is.2.z_i))))
      0 with e | gs
  · simp only [hsec, rres_bind_error] at h
    exact Except.noConfusion h
  · simp only [hsec, rres_bind_ok] at h
    exact ⟨gs, hsec, h⟩


/-- C1 counterexample: a complete honest run in which every premise of the
claim holds -- the DKG completes (n = t = 1), distributed_keygen derives
m = 3 private key shares for a group with threshold k = 3, encryption
succeeds, and share_decrypt succeeds on the full 3-subset -- yet decrypt
does not return the message: recombining the shares of members 1, 2, 3
multiplies them by the Lagrange coefficients 3, -3, 1, and the partial sum
3*(u*psi_1) + (-3)*(u*psi_2) is the point at infinity, so PublicKey::combine
fails and decrypt returns the converted secp256k1 error instead of the
plaintext. -/
theorem C1_counterexample :
    DKGProtocol.finalize ⟨[(1, ⟨1, ⟨[1]⟩, ⟨[2]⟩, [], [], []⟩)], 1, 1⟩
        = some (.ok (⟨1, 2, ⟨1, 1⟩⟩, [(1, ⟨1, 1, 2⟩)]))
    ∧ distributed_keygen prims0 [(1, ⟨1, 1, 2⟩)] ⟨[], 3, 3⟩ 1 [-3, 1]
        = .ok [(1, ⟨1, 1, 1⟩), (2, ⟨2, 1, 1⟩), (3, ⟨3, 3, 3⟩)]
    ∧ encrypt prims0 [7] [] ⟨1, 2, ⟨1, 1⟩⟩ 1 = .ok ⟨1, 1, [7], 2⟩
    ∧ share_decrypt prims0 ⟨1, 1, [7], 2⟩ ⟨1, 1, 1⟩ = .ok ⟨1, 1⟩
    ∧ share_decrypt prims0 ⟨1, 1, [7], 2⟩ ⟨2, 1, 1⟩ = .ok ⟨2, 1⟩
    ∧ share_decrypt prims0 ⟨1, 1, [7], 2⟩ ⟨3, 3, 3⟩ = .ok ⟨3, 3⟩
    ∧ decrypt prims0 ⟨1, 1, [7], 2⟩ [⟨1, 1⟩, ⟨2, 1⟩, ⟨3, 3⟩] 3
        = .error .Secp256k1Error
    ∧ (.error .Secp256k1Error : RRes (List ℕ)) ≠ .ok [7] := by
  decide

/-- C1 (amended): for a completed DKG whose participant map iterates in the
canonical order 1..n, if finalize succeeds, distributed_keygen (called with
the DKG threshold t and k - 1 fresh coefficients, k the group threshold)
derives the private key shares, encryption of a message succeeds, and
share_decrypt succeeds on each member of a k-subset J of the group members,
then decrypt on those k shares returns either exactly the original message
or the converted secp256k1 error (raised when a weighted share or a partial
sum of the Lagrange recombination degenerates to zero or the point at
infinity); no other outcome -- in particular no wrong plaintext -- is
possible. -/
theorem C1_round_trip (pr : Primitives) (st : DKGProtocol)
    (mpk : MasterPublicKey) (ms : List (ℕ × MasterSecretShare))
    (gid : GroupIdentity) (freshCoeffs : List Scalar)
    (pks : List (ℕ × PrivateKeyShare)) (msg : List ℕ) (u : Scalar)
    (c : Ciphertext) (J : List ℕ) (dsh : ℕ → DecryptionShare)
    (hkeys : st.participants.map Prod.fst = List.range' 1 st.n)
    (htn : st.t ≤ st.n)
    (hfin : st.finalize = some (.ok (mpk, ms)))
    (hkg : distributed_keygen pr ms gid st.t freshCoeffs = .ok pks)
    (hflen : freshCoeffs.length + 1 = gid.threshold)
    (hm32 : gid.members < 2 ^ 32)
    (henc : encrypt pr msg gid.id mpk u = .ok c)
    (hJnd : J.Nodup) (hJlen : J.length = gid.threshold)
    (hJmem : ∀ j ∈ J, 1 ≤ j ∧ j ≤ gid.members)
    (hsd : ∀ j ∈ J, ∃ ps, lookup j pks = some ps
        ∧ share_decrypt pr c ps = .ok (dsh j)) :
    decrypt pr c (J.map dsh) gid.threshold = .ok msg
    ∨ decrypt pr c (J.map dsh) gid.threshold = .error .Secp256k1Error := by
  -- the master public key as Lagrange-weighted sums of the aggregated shares
  obtain ⟨hss, -, resY, resG, haccF, hyv, hgv, -⟩ :=
    finalize_ok_parts st mpk ms hfin
  have hsums := finalizeAccum_ok_sum (secretSharesOf st) (List.range' 1 st.t)
    (List.range' 1 st.t) none none (some resY, some resG) haccF
  simp only [Option.getD_some, Option.getD_none, zero_add] at hsums
  have hy : mpk.y = ((List.range' 1 st.t).map
      (fun i => lag0 (List.range' 1 st.t) i * sIof ms i)).sum := by
    rw [hyv, hsums.1, hss]
  have hg : mpk.gamma = ((List.range' 1 st.t).map
      (fun i => lag0 (List.range' 1 st.t) i * zIof ms i)).sum := by
    rw [hgv, hsums.2, hss]
  -- the group secret reconstructed by distributed_keygen
  obtain ⟨gsec, hsec, hkg2⟩ :=
    distributed_keygen_ok_parts pr ms gid st.t freshCoeffs pks hkg
  have hms_keys : ms.map Prod.fst = List.range' 1 st.n := by
    rw [hss]
    unfold secretSharesOf
    rw [List.map_map]
    exact hkeys
  have hT2 : (((ms.take st.t).map (fun is => (is.1,
      scalar_add is.2.s_i (scalar_mul (pr.h1 gid.id) is.2.z_i)))).map Prod.fst)
      = List.range' 1 st.t := by
    rw [List.map_map]
    have h1 : (ms.take st.t).map (Prod.fst ∘ (fun is => (is.1,
        scalar_add is.2.s_i (scalar_mul (pr.h1 gid.id) is.2.z_i))))
        = (ms.take st.t).map Prod.fst := rfl
    rw [h1, List.map_take, hms_keys, take_range' st.t st.n 1 htn]
  have hsig := lagCombineScalars_ok_sum _ _ 0 gsec hsec
  rw [hT2, List.map_map] at hsig
  have hcongr : ∀ is ∈ ms.take st.t,
      ((fun iv : ℕ × Scalar =>
          iv.2 * lag0 (List.range' 1 st.t) iv.1) ∘
        (fun is : ℕ × MasterSecretShare => (is.1,
          scalar_add is.2.s_i (scalar_mul (pr.h1 gid.id) is.2.z_i)))) is
      = (fun kv : ℕ × MasterSecretShare =>
          (kv.2.s_i + pr.h1 gid.id * kv.2.z_i)
            * lag0 (List.range' 1 st.t) kv.1) is := by
    intro is _
    simp only [Function.comp, scalar_add, scalar_mul]
  rw [List.map_congr_left hcongr] at hsig
  have hbridge := map_take_eq_range_lookup (⟨0, 0, 0⟩ : MasterSecretShare)
    (fun i sh => (sh.s_i + pr.h1 gid.id * sh.z_i)
      * lag0 (List.range' 1 st.t) i) ms 1 st.n st.t hms_keys htn
  rw [hbridge] at hsig
  have hconv : ∀ i ∈ List.range' 1 st.t,
      (fun i => (((lookup i ms).getD (⟨0, 0, 0⟩ : MasterSecretShare)).s_i
          + pr.h1 gid.id
            * ((lookup i ms).getD (⟨0, 0, 0⟩ : MasterSecretShare)).z_i)
        * lag0 (List.range' 1 st.t) i) i
      = (fun i => (sIof ms i + pr.h1 gid.id * zIof ms i)
        * lag0 (List.range' 1 st.t) i) i := fun i _ => rfl
  rw [List.map_congr_left hconv] at hsig
  have hsplit : ((List.range' 1 st.t).map (fun i =>
      (sIof ms i + pr.h1 gid.id * zIof ms i)
        * lag0 (List.range' 1 st.t) i)).sum
      = ((List.range' 1 st.t).map (fun i =>
          lag0 (List.range' 1 st.t) i * sIof ms i)).sum
        + pr.h1 gid.id * ((List.range' 1 st.t).map (fun i =>
          lag0 (List.range' 1 st.t) i * zIof ms i)).sum := by
    rw [← sum_map_mul_left_scalar (pr.h1 gid.id)
        (fun i => lag0 (List.range' 1 st.t) i * zIof ms i)
        (List.range' 1 st.t),
      ← sum_map_add_scalar]
    exact congrArg List.sum (List.map_congr_left (fun i _ => by ring))
  have hcb : mpk.y + mpk.gamma * pr.h1 gid.id = gsec := by
    rw [hy, hg, hsig, zero_add, hsplit]
    ring
  -- encryption: extract the ciphertext components
  simp only [encrypt] at henc
  rcases h1 : mul_tweak mpk.gamma (pr.h1 gid.id) with e1e | gs
  · simp only [h1, rres_bind_error] at henc
    exact Except.noConfusion henc
  obtain ⟨hgs, hh0, hgs0⟩ := mul_tweak_ok _ _ _ h1
  subst hgs
  simp only [h1, rres_bind_ok] at henc
  rcases h2 : combine mpk.y (mpk.gamma * pr.h1 gid.id) with e2e | cb
  · simp only [h2, rres_bind_error] at henc
    exact Except.noConfusion henc
  obtain ⟨hcbv, hcb0⟩ := combine_ok _ _ _ h2
  subst hcbv
  simp only [h2, rres_bind_ok] at henc
  rcases h3 : mul_tweak (mpk.y + mpk.gamma * pr.h1 gid.id) u with e3e | dl
  · simp only [h3, rres_bind_error] at henc
    exact Except.noConfusion henc
  obtain ⟨hdlv, hu0, hdl0⟩ := mul_tweak_ok _ _ _ h3
  subst hdlv
  simp only [h3, rres_bind_ok] at henc
  simp only [secretKeyOfScalar, if_neg hu0, rres_bind_ok] at henc
  by_cases hr0 : pr.h1 (msg
      ++ pr.ser ((mpk.y + mpk.gamma * pr.h1 gid.id) * u)) = 0
  · simp only [if_pos hr0, rres_bind_error] at henc
    exact Except.noConfusion henc
  simp only [if_neg hr0, rres_bind_ok, rres_pure_eq, pubOfSecret] at henc
  have hc2 : c = ⟨u,
      pr.h1 (msg ++ pr.ser ((mpk.y + mpk.gamma * pr.h1 gid.id) * u)),
      xor_bytes
        (pad_or_truncate (pr.h2b (pr.ser (pr.h1 (msg
          ++ pr.ser ((mpk.y + mpk.gamma * pr.h1 gid.id) * u)))
          ++ pr.h2 ((mpk.y + mpk.gamma * pr.h1 gid.id) * u))) msg.length)
        (xor_bytes
          (pad_or_truncate (pr.h2 ((mpk.y + mpk.gamma * pr.h1 gid.id) * u))
            msg.length) msg),
      scalar_add u (scalar_mul
        (pr.h1 (msg ++ pr.ser ((mpk.y + mpk.gamma * pr.h1 gid.id) * u)))
        (pr.h3 u
          (pr.h1 (msg ++ pr.ser ((mpk.y + mpk.gamma * pr.h1 gid.id) * u)))
          (xor_bytes
            (pad_or_truncate (pr.h2b (pr.ser (pr.h1 (msg
              ++ pr.ser ((mpk.y + mpk.gamma * pr.h1 gid.id) * u)))
              ++ pr.h2 ((mpk.y + mpk.gamma * pr.h1 gid.id) * u))) msg.length)
            (xor_bytes
              (pad_or_truncate
                (pr.h2 ((mpk.y + mpk.gamma * pr.h1 gid.id) * u))
                msg.length) msg))))⟩ := (Except.ok.inj henc).symm
  subst hc2
  -- the decryption shares delivered by share_decrypt
  have hdsh : ∀ j ∈ J, dsh j
      = ⟨j, u * Poly.evaluate ⟨gsec :: freshCoeffs⟩ j⟩ := by
    intro j hj
    obtain ⟨ps, hps, hsdj⟩ := hsd j hj
    have hjr : j ∈ List.range' 1 gid.members := by
      rw [List.mem_range'_1]
      obtain ⟨hj1, hj2⟩ := hJmem j hj
      omega
    have hl := keygenSharesAux_lookup ⟨gsec :: freshCoeffs⟩
      (List.range' 1 gid.members) pks hkg2 j hjr
    rw [hl] at hps
    have hpsv : ps = ⟨j, Poly.evaluate ⟨gsec :: freshCoeffs⟩ j,
        pubOfSecret (Poly.evaluate ⟨gsec :: freshCoeffs⟩ j)⟩ :=
      (Option.some.inj hps).symm
    have hout := share_decrypt_ok pr _ ps (dsh j) hsdj
    rw [hout, hpsv]
  -- index bookkeeping
  have hj32 : ∀ j ∈ J, j < 2 ^ 32 :=
    fun j hj => lt_of_le_of_lt (hJmem j hj).2 hm32
  have h32q : (2 : ℕ) ^ 32 < q := by decide
  have hjq : ∀ i ∈ J, i < q :=
    fun i hi => lt_trans (hj32 i hi) h32q
  have hdist : ∀ i ∈ J, ∀ k2 ∈ J, k2 ≠ i →
      ((i : ℕ) : ZMod q) ≠ ((k2 : ℕ) : ZMod q) := by
    intro i hi k2 hk2 hne heq
    have hi2 : i < q := hjq i hi
    have hk22 : k2 < q := hjq k2 hk2
    have hval := congrArg ZMod.val heq
    rw [ZMod.val_cast_of_lt hi2, ZMod.val_cast_of_lt hk22] at hval
    exact hne hval.symm
  have hcoefok : ∀ i ∈ J, lagrange_coefficient J i 0 = .ok (lag0 J i) := by
    intro i hi
    obtain ⟨cv, hcv⟩ := lagrange_coefficient_ok J i 0 (hdist i hi)
    rw [hcv]
    simp [lag0, hcv]
  have hlen2 : ¬ ((J.map dsh).length < gid.threshold) := by
    rw [List.length_map, hJlen]
    omega
  have e1 : (((J.map dsh).map (fun s => s.index)).take gid.threshold) = J := by
    rw [List.map_map]
    have hx : J.map ((fun s : DecryptionShare => s.index) ∘ dsh) = J := by
      have hpt : ∀ j ∈ J, ((fun s : DecryptionShare => s.index) ∘ dsh) j
          = id j := by
        intro j hj
        simp only [Function.comp, id]
        rw [hdsh j hj]
      rw [List.map_congr_left hpt, List.map_id]
    rw [hx, List.take_of_length_le hJlen.le]
  have e2 : (J.map dsh).take gid.threshold = J.map dsh :=
    List.take_of_length_le (by rw [List.length_map]; exact hJlen.le)
  -- the Lagrange recombination of the delivered shares
  rcases hacc2 : decryptAccum J (J.map dsh) none with eD | dopt
  · right
    have hcoefs : ∀ sh ∈ J.map dsh,
        ∃ cv, lagrange_coefficient J sh.index 0 = .ok cv := by
      intro sh hsh
      rcases List.mem_map.mp hsh with ⟨j, hj, rfl⟩
      rw [hdsh j hj]
      exact lagrange_coefficient_ok J j 0 (hdist j hj)
    have heD := decryptAccum_error J (J.map dsh) none eD hcoefs hacc2
    subst heD
    simp only [decrypt, if_neg hlen2, e1, e2, hacc2, rres_bind_error]
  · rcases decryptAccum_ok_shape J (J.map dsh) none dopt hacc2 with
      ⟨d2, rfl⟩ | ⟨-, hnil⟩
    swap
    · exfalso
      have hJ0 : J = [] := List.map_eq_nil_iff.mp hnil
      rw [hJ0] at hJlen
      simp only [List.length_nil] at hJlen
      omega
    left
    have hsum := decryptAccum_ok_sum J (J.map dsh) none (some d2) hacc2
    simp only [Option.getD_some, Option.getD_none, zero_add] at hsum
    have hevalP : ∀ j : ℕ, j < 2 ^ 32 →
        Poly.evaluate ⟨gsec :: freshCoeffs⟩ j
          = Polynomial.eval ((j : ℕ) : ZMod q)
              (polyOf (gsec :: freshCoeffs)) := by
      intro j hj
      rw [evaluate_eq_polyOf, scalar_from_u32_eq j hj]
    have hmapS : (J.map dsh).map
        (fun sh => sh.lambda_i * lag0 J sh.index)
        = J.map (fun j : ℕ => u * (lag0 J j
            * Polynomial.eval ((j : ℕ) : ZMod q)
                (polyOf (gsec :: freshCoeffs)))) := by
      rw [List.map_map]
      refine List.map_congr_left ?_
      intro j hj
      simp only [Function.comp]
      rw [hdsh j hj]
      show (u * Poly.evaluate ⟨gsec :: freshCoeffs⟩ j) * lag0 J j = _
      rw [hevalP j (hj32 j hj)]
      ring
    have hdeg : (polyOf (gsec :: freshCoeffs)).natDegree < J.length := by
      have hd := polyOf_natDegree_lt (gsec :: freshCoeffs)
        (List.cons_ne_nil gsec freshCoeffs)
      rw [List.length_cons] at hd
      omega
    have hinterp := sum_lagrange_zero J hJnd hjq (lag0 J) hcoefok
      (polyOf (gsec :: freshCoeffs)) hdeg
    have heval0 : Polynomial.eval 0 (polyOf (gsec :: freshCoeffs)) = gsec := by
      rw [polyOf_cons]
      simp
    have hd2 : d2 = (mpk.y + mpk.gamma * pr.h1 gid.id) * u := by
      rw [hsum, hmapS, sum_map_mul_left_scalar u
        (fun j : ℕ => lag0 J j * Polynomial.eval ((j : ℕ) : ZMod q)
          (polyOf (gsec :: freshCoeffs))) J, hinterp, heval0, hcb]
      ring
    simp only [decrypt, if_neg hlen2, e1, e2, hacc2, rres_bind_ok]
    rw [hd2]
    have hFlen : ∀ a b : List ℕ,
        (xor_bytes (pad_or_truncate a msg.length)
          (xor_bytes (pad_or_truncate b msg.length) msg)).length
          = msg.length := by
      intro a b
      rw [xor_bytes_length, xor_bytes_length, pad_or_truncate_length,
        pad_or_truncate_length]
      omega
    rw [hFlen]
    rw [xor_unmask msg _ _ (pad_or_truncate_length _ _)
      (pad_or_truncate_length _ _)]
    simp only [secretKeyOfScalar, if_neg hr0, rres_bind_ok, pubOfSecret]
    simp

/-- Closed instance of C1: the full pipeline at n = t = 1, k = m = 1,
message [7], run through the round-trip theorem. -/
theorem C1_witness :
    decrypt prims0 ⟨1, 1, [7], 2⟩ [⟨1, 2⟩] 1 = .ok [7]
    ∨ decrypt prims0 ⟨1, 1, [7], 2⟩ [⟨1, 2⟩] 1 = .error .Secp256k1Error := by
  have hsd : ∀ j ∈ ([1] : List ℕ), ∃ ps,
      lookup j [(1, (⟨1, 2, 2⟩ : PrivateKeyShare))] = some ps
      ∧ share_decrypt prims0 ⟨1, 1, [7], 2⟩ ps
          = .ok ((fun _ => (⟨1, 2⟩ : DecryptionShare)) j) := by
    intro j hj
    have hj1 : j = 1 := List.mem_singleton.mp hj
    subst hj1
    exact ⟨⟨1, 2, 2⟩, by decide, by decide⟩
  simpa using C1_round_trip prims0 ⟨[(1, ⟨1, ⟨[1]⟩, ⟨[1]⟩, [], [], []⟩)], 1, 1⟩
    ⟨1, 1, ⟨1, 1⟩⟩ [(1, ⟨1, 1, 1⟩)] ⟨[], 1, 1⟩ [] [(1, ⟨1, 2, 2⟩)] [7] 1
    ⟨1, 1, [7], 2⟩ [1] (fun _ => ⟨1, 2⟩) (by decide) (by decide) (by decide)
    (by decide) (by decide) (by decide) (by decide) (by decide) (by decide)
    (by decide) hsd

end DIBTD